import Mathlib

/-!
Shallow embedding of `src/cprogramminglab/queue.c`: a queue of copied string
values stored in a doubly-linked list of heap-allocated nodes.

Pointers are modelled as natural-number addresses into two explicit heaps
(one for node cells, one for string cells) together with a bump allocator
counter.  `malloc` results are modelled by explicit success oracles
(`okNode`, `okStr`, ...).  C strings are modelled as NUL-free `List Char`
values; `strlen`/`strcpy` become `List.length` and copying the list.
The caller-supplied output buffer of `queue_remove_head` is modelled as a
total function `Nat → Char` over byte indices, and `bufsize - 1` is computed
in `size_t` arithmetic (wrapping at zero) exactly as the C code does.
-/

namespace QueueLab

/-- The C null character, used by `strncpy` padding and the explicit
terminator write in `queue_remove_head`. -/
def NUL : Char := Char.ofNat 0

/-- Model of `list_ele_t` (declared in queue.h, used throughout queue.c):
`value` is the address of the node's owned string copy (`none` models a
NULL `char *`), `next`/`prev` are the forward/backward links. -/
structure ListEle where
  value : Option Nat
  next : Option Nat
  prev : Option Nat
deriving DecidableEq

/-- Model of `queue_t`: head/tail node addresses and the element count. -/
structure QueueS where
  head : Option Nat
  tail : Option Nat
  size : Nat
deriving DecidableEq

/-- Pointwise update of a heap map at one address. -/
def upd {α : Type} (f : Nat → Option α) (a : Nat) (v : Option α) : Nat → Option α :=
  fun x => if x = a then v else f x

/-- The mutable store: node cells, string cells, and a bump-allocator
counter.  `nodes a = none` models unallocated (or freed) memory. -/
structure Heap where
  nodes : Nat → Option ListEle
  strs : Nat → Option (List Char)
  nextA : Nat

/-- The initial store: nothing allocated. -/
def emptyHeap : Heap := ⟨fun _ => none, fun _ => none, 0⟩

/-- The pointer write `node->prev = p` performed through the node address
`x` (queue.c lines 104 and 202).  Dereferencing an unallocated address is
undefined behaviour in C; that branch leaves the heap unchanged and never
runs from a state satisfying the queue invariants. -/
def setPrevAt (h : Heap) (x : Nat) (p : Option Nat) : Heap :=
  match h.nodes x with
  | none => h
  | some nd => { h with nodes := upd h.nodes x (some { nd with prev := p }) }

/-- The pointer write `node->next = p` performed through the node address
`x` (queue.c line 155), with the same unreachable-dereference convention
as `setPrevAt`. -/
def setNextAt (h : Heap) (x : Nat) (p : Option Nat) : Heap :=
  match h.nodes x with
  | none => h
  | some nd => { h with nodes := upd h.nodes x (some { nd with next := p }) }

/-- `queue_new` (queue.c lines 24-34); `ok` models whether `malloc`
succeeded.  On success all three fields are initialised as in the source. -/
def queue_new (ok : Bool) : Option QueueS :=
  if ok then some ⟨none, none, 0⟩ else none

/-- `queue_insert_head` (queue.c lines 79-113).  `okNode`/`okStr` model the
results of the two `malloc` calls.  On string-allocation failure the
partially allocated node is freed (line 94) before returning false.  The
returned triple is (boolean result, queue contents after the call, heap
after the call). -/
def queue_insert_head (qo : Option QueueS) (s : List Char) (okNode okStr : Bool) (h : Heap) :
    Bool × Option QueueS × Heap :=
  match qo with
  | none => (false, none, h)
  | some q =>
    if okNode = false then (false, some q, h)
    else
      let a := h.nextA
      let h1 : Heap := { h with nodes := upd h.nodes a (some ⟨none, none, none⟩),
                                nextA := h.nextA + 1 }
      if okStr = false then
        let h2 : Heap := { h1 with nodes := upd h1.nodes a none }
        (false, some q, h2)
      else
        let sa := h1.nextA
        let h2 : Heap := { h1 with strs := upd h1.strs sa (some s), nextA := h1.nextA + 1 }
        let h3 : Heap := { h2 with nodes := upd h2.nodes a (some ⟨some sa, q.head, none⟩) }
        match q.head with
        | some hd => (true, some ⟨some a, q.tail, q.size + 1⟩, setPrevAt h3 hd (some a))
        | none => (true, some ⟨some a, some a, q.size + 1⟩, h3)

/-- `queue_insert_tail` (queue.c lines 127-164), mirror image of
`queue_insert_head`. -/
def queue_insert_tail (qo : Option QueueS) (s : List Char) (okNode okStr : Bool) (h : Heap) :
    Bool × Option QueueS × Heap :=
  match qo with
  | none => (false, none, h)
  | some q =>
    if okNode = false then (false, some q, h)
    else
      let a := h.nextA
      let h1 : Heap := { h with nodes := upd h.nodes a (some ⟨none, none, none⟩),
                                nextA := h.nextA + 1 }
      if okStr = false then
        let h2 : Heap := { h1 with nodes := upd h1.nodes a none }
        (false, some q, h2)
      else
        let sa := h1.nextA
        let h2 : Heap := { h1 with strs := upd h1.strs sa (some s), nextA := h1.nextA + 1 }
        let h3 : Heap := { h2 with nodes := upd h2.nodes a (some ⟨some sa, none, q.tail⟩) }
        match q.tail with
        | some tl => (true, some ⟨q.head, some a, q.size + 1⟩, setNextAt h3 tl (some a))
        | none => (true, some ⟨some a, some a, q.size + 1⟩, h3)

/-- `size_t` modulus: byte sizes in C are 64-bit unsigned values. -/
def SIZE_T_MOD : Nat := 2 ^ 64

/-- `bufsize - 1` computed in `size_t` arithmetic: wraps to `2^64 - 1` when
`bufsize = 0`, exactly as in queue.c line 193. -/
def sizeSub1 (bufsize : Nat) : Nat := (bufsize + SIZE_T_MOD - 1) % SIZE_T_MOD

/-- Effect of `strncpy(buf, src, n)` on the byte at index `i`: the first
`n` bytes become the characters of `src` padded with NUL (C11 7.24.2.4),
bytes from index `n` on are untouched. -/
def strncpyInto (b : Nat → Char) (src : List Char) (n : Nat) : Nat → Char :=
  fun i => if i < n then src.getD i NUL else b i

/-- Buffer contents after queue.c lines 193-194:
`strncpy(buf, value, bufsize - 1); buf[bufsize - 1] = NUL;` with the
subtraction performed in `size_t` arithmetic. -/
def bufWrite (b : Nat → Char) (src : List Char) (bufsize : Nat) : Nat → Char :=
  fun i => if i = sizeSub1 bufsize then NUL else strncpyInto b src (sizeSub1 bufsize) i

/-- Number of byte stores performed by queue.c lines 193-194: `strncpy`
stores exactly `bufsize - 1` (size_t) bytes, and the terminator assignment
stores one more, at a distinct index. -/
def removeHeadBytesWritten (bufsize : Nat) : Nat := sizeSub1 bufsize + 1

/-- `queue_remove_head` (queue.c lines 183-212).  The result tuple is
(boolean result, queue after, heap after, buffer after, removed payload).
The last component is the string value read out of the removed node for
the copy on line 193 (a ghost observation of `*old_head->value`).  The
three impossible branches marked unreachable correspond to NULL/dangling
dereferences that are undefined behaviour in C; they never run from a
state satisfying the queue invariants. -/
def queue_remove_head (qo : Option QueueS) (buf : Option (Nat → Char)) (bufsize : Nat)
    (h : Heap) :
    Bool × Option QueueS × Heap × Option (Nat → Char) × Option (List Char) :=
  match qo with
  | none => (false, none, h, buf, none)
  | some q =>
    if q.size = 0 then (false, some q, h, buf, none)
    else
      match q.head with
      | none => (false, some q, h, buf, none)
      | some a =>
        match h.nodes a with
        | none => (false, some q, h, buf, none)
        | some nd =>
          let buf2 : Option (Nat → Char) :=
            match buf, nd.value with
            | some b, some sa => some (bufWrite b ((h.strs sa).getD []) bufsize)
            | _, _ => buf
          let strs2 : Nat → Option (List Char) :=
            match nd.value with
            | none => h.strs
            | some sa => upd h.strs sa none
          let h1 : Heap := { nodes := upd h.nodes a none, strs := strs2, nextA := h.nextA }
          let h2 : Heap :=
            match nd.next with
            | none => h1
            | some r => setPrevAt h1 r none
          (true,
           some ⟨nd.next, if nd.next = none then none else q.tail, q.size - 1⟩,
           h2,
           buf2,
           nd.value.bind h.strs)

/-- `queue_size` (queue.c lines 224-231). -/
def queue_size (qo : Option QueueS) : Nat :=
  match qo with
  | none => 0
  | some q => q.size

/-- One `ListEle` with its `next` and `prev` fields exchanged (the body of
the loop in queue.c lines 252-258). -/
def swapNode (nd : ListEle) : ListEle := ⟨nd.value, nd.prev, nd.next⟩

/-- The `while (current != NULL)` loop of `queue_reverse` (queue.c lines
252-258): swap each visited node's links and step to the saved old `next`.
The fuel argument only serves Lean's termination checker; for a queue
satisfying the invariants the chain reaches NULL after exactly `size`
steps, so fuel `q.size` is never exhausted. -/
def reverseLoop (h : Heap) : Option Nat → Nat → Heap
  | none, _ => h
  | some _, 0 => h
  | some c, f + 1 =>
    match h.nodes c with
    | none => h
    | some nd => reverseLoop { h with nodes := upd h.nodes c (some (swapNode nd)) } nd.next f

/-- `queue_reverse` (queue.c lines 242-263): early return on NULL queue,
empty queue or single-element queue; otherwise swap every node's links and
exchange the queue's head and tail fields. -/
def queue_reverse (qo : Option QueueS) (h : Heap) : Option QueueS × Heap :=
  match qo with
  | none => (none, h)
  | some q =>
    match q.head with
    | none => (some q, h)
    | some hd =>
      match h.nodes hd with
      | none => (some q, h)
      | some hdN =>
        if hdN.next = none then (some q, h)
        else (some ⟨q.tail, q.head, q.size⟩, reverseLoop h q.head q.size)

/-- `seg h sel x L e`: starting from pointer `x` and repeatedly following
the link selected by `sel` (either `.next` or `.prev`), one traverses
exactly the allocated node addresses in `L` and is then left holding the
pointer `e`. -/
def seg (h : Heap) (sel : ListEle → Option Nat) : Option Nat → List Nat → Option Nat → Prop
  | x, [], e => x = e
  | x, a :: L, e => x = some a ∧ ∃ nd, h.nodes a = some nd ∧ seg h sel (sel nd) L e

@[simp]
theorem seg_nil {h : Heap} {sel : ListEle → Option Nat} {x e : Option Nat} :
    seg h sel x [] e ↔ x = e := Iff.rfl

@[simp]
theorem seg_cons {h : Heap} {sel : ListEle → Option Nat} {x e : Option Nat} {a : Nat}
    {L : List Nat} :
    seg h sel x (a :: L) e ↔
      x = some a ∧ ∃ nd, h.nodes a = some nd ∧ seg h sel (sel nd) L e := Iff.rfl

/-- The bump allocator has never handed out any address at or above
`nextA`: all such cells are unallocated in both heaps. -/
def freshOk (h : Heap) : Prop :=
  ∀ x, h.nextA ≤ x → h.nodes x = none ∧ h.strs x = none

/-- The string payload stored at node address `a` (empty list if the node
or its string is absent). -/
def valOf (h : Heap) (a : Nat) : List Char :=
  (((h.nodes a).bind ListEle.value).bind h.strs).getD []

/-- The string payloads along a list of node addresses, head to tail. -/
def vals (h : Heap) (L : List Nat) : List (List Char) := L.map (valOf h)

/-- The value address stored in the node at address `a`. -/
def valAddr (h : Heap) (a : Nat) : Option Nat := (h.nodes a).bind ListEle.value

/-- Representation invariant of a queue whose nodes, from head to tail,
sit at the addresses in `L`: the forward chain from `head` traverses `L`
and ends at NULL, the backward chain from `tail` traverses `L.reverse` and
ends at NULL, the count matches, no address repeats, and every node owns
an allocated string through a value address not shared with any other
node. -/
structure WfRep (q : QueueS) (h : Heap) (L : List Nat) : Prop where
  fwd : seg h ListEle.next q.head L none
  bwd : seg h ListEle.prev q.tail L.reverse none
  len : L.length = q.size
  nodup : L.Nodup
  valsOk : ∀ a ∈ L, ∃ nd sa s, h.nodes a = some nd ∧ nd.value = some sa ∧ h.strs sa = some s
  valsNodup : (L.map (valAddr h)).Nodup

theorem seg_congr {h h2 : Heap} {sel sel2 : ListEle → Option Nat} {x e : Option Nat}
    {L : List Nat} (hs : seg h sel x L e)
    (hagree : ∀ a ∈ L, (h2.nodes a).map sel2 = (h.nodes a).map sel) :
    seg h2 sel2 x L e := by
  induction L generalizing x with
  | nil => exact hs
  | cons a L ih =>
    obtain ⟨rfl, nd, hnd, hrest⟩ := hs
    have h2a : (h2.nodes a).map sel2 = some (sel nd) := by
      rw [hagree a (List.mem_cons_self a L), hnd, Option.map_some']
    obtain ⟨nd2, hnd2, hsel2⟩ := Option.map_eq_some'.mp h2a
    exact ⟨rfl, nd2, hnd2, hsel2 ▸ ih hrest fun b hb => hagree b (List.mem_cons_of_mem _ hb)⟩

theorem seg_append {h : Heap} {sel : ListEle → Option Nat} {x y e : Option Nat}
    {L M : List Nat} (h1 : seg h sel x L y) (h2 : seg h sel y M e) :
    seg h sel x (L ++ M) e := by
  induction L generalizing x with
  | nil => rwa [h1]
  | cons a L ih =>
    obtain ⟨rfl, nd, hnd, hrest⟩ := h1
    exact ⟨rfl, nd, hnd, ih hrest⟩

theorem seg_split {h : Heap} {sel : ListEle → Option Nat} {x e : Option Nat}
    {L M : List Nat} (hs : seg h sel x (L ++ M) e) :
    ∃ y, seg h sel x L y ∧ seg h sel y M e := by
  induction L generalizing x with
  | nil => exact ⟨x, rfl, hs⟩
  | cons a L ih =>
    obtain ⟨rfl, nd, hnd, hrest⟩ := hs
    obtain ⟨y, hy1, hy2⟩ := ih hrest
    exact ⟨y, ⟨rfl, nd, hnd, hy1⟩, hy2⟩

theorem seg_mem_nodes {h : Heap} {sel : ListEle → Option Nat} {x e : Option Nat}
    {L : List Nat} (hs : seg h sel x L e) {a : Nat} (ha : a ∈ L) :
    ∃ nd, h.nodes a = some nd := by
  induction L generalizing x with
  | nil => cases ha
  | cons b L ih =>
    obtain ⟨rfl, nd, hnd, hrest⟩ := hs
    rcases List.mem_cons.mp ha with rfl | ha
    · exact ⟨nd, hnd⟩
    · exact ih hrest ha

theorem freshOk_lt_of_nodes {h : Heap} (hf : freshOk h) {a : Nat} {nd : ListEle}
    (ha : h.nodes a = some nd) : a < h.nextA := by
  by_contra hcon
  have := (hf a (Nat.le_of_not_lt hcon)).1
  rw [this] at ha
  exact Option.noConfusion ha

theorem freshOk_lt_of_strs {h : Heap} (hf : freshOk h) {sa : Nat} {s : List Char}
    (ha : h.strs sa = some s) : sa < h.nextA := by
  by_contra hcon
  have := (hf sa (Nat.le_of_not_lt hcon)).2
  rw [this] at ha
  exact Option.noConfusion ha

/-- Transport of the representation invariant along heaps that agree
pointwise on both cell maps. -/
theorem WfRep_congr {q : QueueS} {h h2 : Heap} {L : List Nat}
    (hn : ∀ x, h2.nodes x = h.nodes x) (hs : ∀ x, h2.strs x = h.strs x)
    (hw : WfRep q h L) : WfRep q h2 L := by
  refine ⟨seg_congr hw.fwd fun a _ => by rw [hn], seg_congr hw.bwd fun a _ => by rw [hn],
    hw.len, hw.nodup, ?_, ?_⟩
  · intro a ha
    obtain ⟨nd, sa, s, h1, h2', h3⟩ := hw.valsOk a ha
    exact ⟨nd, sa, s, by rw [hn]; exact h1, h2', by rw [hs]; exact h3⟩
  · have : L.map (valAddr h2) = L.map (valAddr h) :=
      List.map_congr_left fun a _ => by unfold valAddr; rw [hn]
    rw [this]; exact hw.valsNodup

@[simp]
theorem upd_same {α : Type} (f : Nat → Option α) (a : Nat) (v : Option α) :
    upd f a v a = v := by simp [upd]

theorem upd_ne {α : Type} (f : Nat → Option α) {a x : Nat} (v : Option α) (hx : x ≠ a) :
    upd f a v x = f x := by simp [upd, hx]

theorem upd_upd_same {α : Type} (f : Nat → Option α) (a : Nat) (v w : Option α) :
    upd (upd f a v) a w = upd f a w := by
  funext x
  by_cases hx : x = a <;> simp [upd, hx]

@[simp]
theorem setPrevAt_strs (h : Heap) (x : Nat) (p : Option Nat) :
    (setPrevAt h x p).strs = h.strs := by
  unfold setPrevAt
  cases h.nodes x <;> rfl

@[simp]
theorem setPrevAt_nextA (h : Heap) (x : Nat) (p : Option Nat) :
    (setPrevAt h x p).nextA = h.nextA := by
  unfold setPrevAt
  cases h.nodes x <;> rfl

theorem setPrevAt_nodes_ne (h : Heap) {x b : Nat} (p : Option Nat) (hb : b ≠ x) :
    (setPrevAt h x p).nodes b = h.nodes b := by
  unfold setPrevAt
  cases h.nodes x with
  | none => rfl
  | some nd => exact upd_ne _ _ hb

theorem setPrevAt_nodes_self {h : Heap} {x : Nat} {nd : ListEle} (p : Option Nat)
    (hx : h.nodes x = some nd) :
    (setPrevAt h x p).nodes x = some { nd with prev := p } := by
  unfold setPrevAt
  rw [hx]
  exact upd_same _ _ _

theorem setPrevAt_of_none {h : Heap} {x : Nat} (p : Option Nat) (hx : h.nodes x = none) :
    setPrevAt h x p = h := by
  unfold setPrevAt
  rw [hx]

theorem setPrevAt_map_next (h : Heap) (x : Nat) (p : Option Nat) (b : Nat) :
    ((setPrevAt h x p).nodes b).map ListEle.next = (h.nodes b).map ListEle.next := by
  by_cases hb : b = x
  · subst hb
    cases hx : h.nodes b with
    | none => rw [setPrevAt_of_none p hx, hx]
    | some nd =>
      rw [setPrevAt_nodes_self p hx]
      rfl
  · rw [setPrevAt_nodes_ne h p hb]

theorem setPrevAt_map_value (h : Heap) (x : Nat) (p : Option Nat) (b : Nat) :
    ((setPrevAt h x p).nodes b).map ListEle.value = (h.nodes b).map ListEle.value := by
  by_cases hb : b = x
  · subst hb
    cases hx : h.nodes b with
    | none => rw [setPrevAt_of_none p hx, hx]
    | some nd =>
      rw [setPrevAt_nodes_self p hx]
      rfl
  · rw [setPrevAt_nodes_ne h p hb]

@[simp]
theorem setNextAt_strs (h : Heap) (x : Nat) (p : Option Nat) :
    (setNextAt h x p).strs = h.strs := by
  unfold setNextAt
  cases h.nodes x <;> rfl

@[simp]
theorem setNextAt_nextA (h : Heap) (x : Nat) (p : Option Nat) :
    (setNextAt h x p).nextA = h.nextA := by
  unfold setNextAt
  cases h.nodes x <;> rfl

theorem setNextAt_nodes_ne (h : Heap) {x b : Nat} (p : Option Nat) (hb : b ≠ x) :
    (setNextAt h x p).nodes b = h.nodes b := by
  unfold setNextAt
  cases h.nodes x with
  | none => rfl
  | some nd => exact upd_ne _ _ hb

theorem setNextAt_nodes_self {h : Heap} {x : Nat} {nd : ListEle} (p : Option Nat)
    (hx : h.nodes x = some nd) :
    (setNextAt h x p).nodes x = some { nd with next := p } := by
  unfold setNextAt
  rw [hx]
  exact upd_same _ _ _

theorem setNextAt_of_none {h : Heap} {x : Nat} (p : Option Nat) (hx : h.nodes x = none) :
    setNextAt h x p = h := by
  unfold setNextAt
  rw [hx]

theorem setNextAt_map_prev (h : Heap) (x : Nat) (p : Option Nat) (b : Nat) :
    ((setNextAt h x p).nodes b).map ListEle.prev = (h.nodes b).map ListEle.prev := by
  by_cases hb : b = x
  · subst hb
    cases hx : h.nodes b with
    | none => rw [setNextAt_of_none p hx, hx]
    | some nd =>
      rw [setNextAt_nodes_self p hx]
      rfl
  · rw [setNextAt_nodes_ne h p hb]

theorem setNextAt_map_value (h : Heap) (x : Nat) (p : Option Nat) (b : Nat) :
    ((setNextAt h x p).nodes b).map ListEle.value = (h.nodes b).map ListEle.value := by
  by_cases hb : b = x
  · subst hb
    cases hx : h.nodes b with
    | none => rw [setNextAt_of_none p hx, hx]
    | some nd =>
      rw [setNextAt_nodes_self p hx]
      rfl
  · rw [setNextAt_nodes_ne h p hb]

theorem valAddr_eq_of_map {h h2 : Heap} {c : Nat}
    (hm : (h2.nodes c).map ListEle.value = (h.nodes c).map ListEle.value) :
    valAddr h2 c = valAddr h c := by
  unfold valAddr
  cases e2 : h2.nodes c <;> cases e : h.nodes c <;> rw [e2, e] at hm <;>
    simp_all

theorem valOf_eq (h : Heap) (c : Nat) :
    valOf h c = ((valAddr h c).bind h.strs).getD [] := rfl

/-- Every node address on a chain is below the allocator counter. -/
theorem seg_mem_lt {h : Heap} {sel : ListEle → Option Nat} {x e : Option Nat} {L : List Nat}
    (hs : seg h sel x L e) (hf : freshOk h) {a : Nat} (ha : a ∈ L) : a < h.nextA := by
  obtain ⟨nd, hnd⟩ := seg_mem_nodes hs ha
  exact freshOk_lt_of_nodes hf hnd

/-- Every value address reachable from a well-formed chain is below the
allocator counter. -/
theorem WfRep.valAddr_lt {q : QueueS} {h : Heap} {L : List Nat} (hw : WfRep q h L)
    (hf : freshOk h) {b : Nat} (hb : b ∈ L) :
    ∃ sb, valAddr h b = some sb ∧ sb < h.nextA := by
  obtain ⟨nd, sb, sv, h1, h2, h3⟩ := hw.valsOk b hb
  exact ⟨sb, by unfold valAddr; rw [h1]; exact h2, freshOk_lt_of_strs hf h3⟩

theorem seg_none_nil {h : Heap} {sel : ListEle → Option Nat} {e : Option Nat} {L : List Nat}
    (hs : seg h sel none L e) : L = [] := by
  cases L with
  | nil => rfl
  | cons a t => exact absurd hs.1 (by simp)

/-- Specification of a successful `queue_insert_head`: the new node sits at
the previously fresh address `h.nextA`, is prepended to the chain, and the
stored values become `s` followed by the old values. -/
theorem insert_head_ok {q : QueueS} {h : Heap} {L : List Nat} (s : List Char)
    (hw : WfRep q h L) (hf : freshOk h) :
    ∃ q2 h2, queue_insert_head (some q) s true true h = (true, some q2, h2) ∧
      WfRep q2 h2 (h.nextA :: L) ∧ freshOk h2 ∧
      vals h2 (h.nextA :: L) = s :: vals h L ∧ q2.size = q.size + 1 ∧
      q2.head = some h.nextA ∧ h2.nextA = h.nextA + 2 := by
  obtain ⟨qh, qt, qs⟩ := q
  cases qh with
  | none =>
    -- the queue was empty: the chain is empty and the new node becomes both ends
    cases L with
    | cons b t => exact absurd hw.fwd.1 (by simp)
    | nil =>
    have hqt : qt = none := hw.bwd
    have hqs : qs = 0 := hw.len.symm
    subst hqt hqs
    set a := h.nextA with ha_def
    set v : ListEle := ⟨some (a + 1), none, none⟩ with hv_def
    set H3 : Heap := ⟨upd (upd h.nodes a (some ⟨none, none, none⟩)) a (some v),
      upd h.strs (a + 1) (some s), a + 1 + 1⟩ with hH3_def
    have hH3a : H3.nodes a = some v := by
      show upd (upd h.nodes a _) a _ a = some v
      rw [upd_upd_same, upd_same]
    refine ⟨⟨some a, some a, 1⟩, H3, rfl, ?_, ?_, ?_, rfl, rfl, rfl⟩
    · refine ⟨⟨rfl, v, hH3a, rfl⟩, ⟨rfl, v, hH3a, rfl⟩, rfl, by simp, ?_, ?_⟩
      · intro c hc
        rw [List.mem_singleton] at hc
        subst hc
        refine ⟨v, a + 1, s, hH3a, rfl, ?_⟩
        show upd h.strs (a + 1) (some s) (a + 1) = some s
        exact upd_same _ _ _
      · show ([a].map (valAddr H3)).Nodup
        simp
    · intro x hx
      replace hx : a + 1 + 1 ≤ x := hx
      have hx1 : x ≠ a := by omega
      have hx2 : x ≠ a + 1 := by omega
      constructor
      · show upd (upd h.nodes a _) a _ x = none
        rw [upd_upd_same, upd_ne _ _ hx1]
        exact (hf x (by omega)).1
      · show upd h.strs (a + 1) (some s) x = none
        rw [upd_ne _ _ hx2]
        exact (hf x (by omega)).2
    · show [valOf H3 a] = [s]
      have hva : valAddr H3 a = some (a + 1) := by
        unfold valAddr
        rw [hH3a]
        rfl
      rw [valOf_eq, hva]
      show [(H3.strs (a + 1)).getD []] = [s]
      rw [show H3.strs (a + 1) = some s from upd_same _ _ _]
      rfl
  | some hd =>
    -- the queue was non-empty: hd is the old head node
    cases L with
    | nil => exact absurd hw.fwd (by simp)
    | cons b t =>
    obtain ⟨hb, hdN, hnd, hrest⟩ := hw.fwd
    have hbd : hd = b := by injection hb
    subst hbd
    have hhd_lt : hd < h.nextA := freshOk_lt_of_nodes hf hnd
    have hmem_lt : ∀ c ∈ hd :: t, c < h.nextA := fun c hc => seg_mem_lt hw.fwd hf hc
    -- name the intermediate heap (after both allocations, before the prev write)
    set a := h.nextA with ha_def
    set v : ListEle := ⟨some (a + 1), some hd, none⟩ with hv_def
    set H3 : Heap := ⟨upd (upd h.nodes a (some ⟨none, none, none⟩)) a (some v),
      upd h.strs (a + 1) (some s), a + 1 + 1⟩ with hH3_def
    have hH3nodes : ∀ c, c ≠ a → H3.nodes c = h.nodes c := by
      intro c hc
      show upd (upd h.nodes a _) a _ c = h.nodes c
      rw [upd_upd_same, upd_ne _ _ hc]
    have hH3a : H3.nodes a = some v := by
      show upd (upd h.nodes a _) a _ a = some v
      rw [upd_upd_same, upd_same]
    have hH3hd : H3.nodes hd = some hdN := by
      rw [hH3nodes hd (by omega)]
      exact hnd
    set H4 : Heap := setPrevAt H3 hd (some a) with hH4_def
    have hH4hd : H4.nodes hd = some { hdN with prev := some a } :=
      setPrevAt_nodes_self _ hH3hd
    have hH4ne : ∀ c, c ≠ hd → H4.nodes c = H3.nodes c := fun c hc =>
      setPrevAt_nodes_ne _ _ hc
    have hH4a : H4.nodes a = some v := by rw [hH4ne a (by omega), hH3a]
    have hH4old : ∀ c, c ≠ a → c ≠ hd → H4.nodes c = h.nodes c := by
      intro c hc1 hc2
      rw [hH4ne c hc2, hH3nodes c hc1]
    have hH4strs : H4.strs = upd h.strs (a + 1) (some s) := by
      rw [hH4_def, setPrevAt_strs]
    have hH4nextA : H4.nextA = a + 1 + 1 := by rw [hH4_def, setPrevAt_nextA]
    have hmapnext : ∀ c ∈ hd :: t, (H4.nodes c).map ListEle.next = (h.nodes c).map ListEle.next := by
      intro c hc
      rw [hH4_def, setPrevAt_map_next]
      rw [hH3nodes c (by have := hmem_lt c hc; omega)]
    have hvalmap : ∀ c ∈ hd :: t, (H4.nodes c).map ListEle.value = (h.nodes c).map ListEle.value := by
      intro c hc
      rw [hH4_def, setPrevAt_map_value]
      rw [hH3nodes c (by have := hmem_lt c hc; omega)]
    refine ⟨⟨some a, qt, qs + 1⟩, H4, rfl, ?_, ?_, ?_, rfl, rfl, hH4nextA⟩
    · -- the representation invariant for the extended chain
      have fwd4 : seg H4 ListEle.next (some a) (a :: hd :: t) none := by
        refine ⟨rfl, v, hH4a, ?_⟩
        show seg H4 ListEle.next (some hd) (hd :: t) none
        exact seg_congr hw.fwd hmapnext
      have bwd_old : seg h ListEle.prev qt (t.reverse ++ [hd]) none := by
        have := hw.bwd
        rwa [List.reverse_cons] at this
      obtain ⟨y, hy1, hy2⟩ := seg_split bwd_old
      have hy_eq : y = some hd := hy2.1
      have hdnotint : hd ∉ t := by
        have := hw.nodup
        rw [List.nodup_cons] at this
        exact this.1
      have p1 : seg H4 ListEle.prev qt t.reverse (some hd) := by
        rw [hy_eq] at hy1
        refine seg_congr hy1 ?_
        intro c hc
        have hct : c ∈ t := List.mem_reverse.mp hc
        have hclt : c < a := hmem_lt c (List.mem_cons_of_mem _ hct)
        rw [hH4old c (by omega) (fun hch => hdnotint (hch ▸ hct))]
      have p2 : seg H4 ListEle.prev (some hd) [hd] (some a) :=
        ⟨rfl, ListEle.mk hdN.value hdN.next (some a), hH4hd, rfl⟩
      have p3 : seg H4 ListEle.prev (some a) [a] none :=
        ⟨rfl, v, hH4a, rfl⟩
      have bwd4 : seg H4 ListEle.prev qt ((a :: hd :: t).reverse) none := by
        have hap := seg_append (seg_append p1 p2) p3
        have hlist : (a :: hd :: t).reverse = (t.reverse ++ [hd]) ++ [a] := by
          rw [List.reverse_cons, List.reverse_cons]
        rw [hlist]
        exact hap
      refine ⟨fwd4, bwd4, by simpa using hw.len, ?_, ?_, ?_⟩
      · rw [List.nodup_cons]
        exact ⟨fun hmem => absurd (hmem_lt a hmem) (by omega), hw.nodup⟩
      · intro c hc
        rcases List.mem_cons.mp hc with rfl | hc2
        · exact ⟨v, a + 1, s, hH4a, rfl, by rw [hH4strs]; exact upd_same _ _ _⟩
        · obtain ⟨nd2, sb, sv, e1, e2, e3⟩ := hw.valsOk c hc2
          have hsblt : sb < a := freshOk_lt_of_strs hf e3
          by_cases hch : c = hd
          · subst hch
            have hnd2 : nd2 = hdN := by
              rw [hnd] at e1
              injection e1 with hval
              exact hval.symm
            refine ⟨ListEle.mk hdN.value hdN.next (some a), sb, sv, hH4hd, ?_, ?_⟩
            · show hdN.value = some sb
              rw [← hnd2]
              exact e2
            · rw [hH4strs, upd_ne _ _ (by omega)]
              exact e3
          · refine ⟨nd2, sb, sv, ?_, e2, ?_⟩
            · rw [hH4old c (by have := hmem_lt c hc2; omega) hch]
              exact e1
            · rw [hH4strs, upd_ne _ _ (by omega)]
              exact e3
      · have hmapeq : (hd :: t).map (valAddr H4) = (hd :: t).map (valAddr h) :=
          List.map_congr_left fun c hc => valAddr_eq_of_map (hvalmap c hc)
        show ((a :: hd :: t).map (valAddr H4)).Nodup
        rw [List.map_cons, hmapeq, List.nodup_cons]
        constructor
        · intro hmem
          have hva : valAddr H4 a = some (a + 1) := by
            unfold valAddr
            rw [hH4a]
            rfl
          rw [hva] at hmem
          obtain ⟨c, hc, hceq⟩ := List.mem_map.mp hmem
          obtain ⟨sb, hsb, hsblt⟩ := hw.valAddr_lt hf hc
          rw [hsb] at hceq
          have : sb = a + 1 := by injection hceq
          omega
        · exact hw.valsNodup
    · -- allocator freshness is preserved
      intro x hx
      rw [hH4nextA] at hx
      constructor
      · rw [hH4old x (by omega) (by omega)]
        exact (hf x (by omega)).1
      · rw [hH4strs, upd_ne _ _ (by omega)]
        exact (hf x (by omega)).2
    · -- stored values: s in front, everything else untouched
      show valOf H4 a :: (hd :: t).map (valOf H4) = s :: (hd :: t).map (valOf h)
      congr 1
      · rw [valOf_eq]
        have hva : valAddr H4 a = some (a + 1) := by
          unfold valAddr
          rw [hH4a]
          rfl
        rw [hva]
        show ((H4.strs (a + 1)).getD []) = s
        rw [hH4strs, upd_same]
        rfl
      · refine List.map_congr_left fun c hc => ?_
        rw [valOf_eq, valOf_eq, valAddr_eq_of_map (hvalmap c hc)]
        obtain ⟨sb, hsb, hsblt⟩ := hw.valAddr_lt hf hc
        rw [hsb]
        show ((H4.strs sb).getD []) = ((h.strs sb).getD [])
        rw [hH4strs, upd_ne _ _ (by omega)]

/-- Specification of a successful `queue_insert_tail`: the new node sits at
the previously fresh address `h.nextA`, is appended to the chain, and the
stored values become the old values followed by `s`. -/
theorem insert_tail_ok {q : QueueS} {h : Heap} {L : List Nat} (s : List Char)
    (hw : WfRep q h L) (hf : freshOk h) :
    ∃ q2 h2, queue_insert_tail (some q) s true true h = (true, some q2, h2) ∧
      WfRep q2 h2 (L ++ [h.nextA]) ∧ freshOk h2 ∧
      vals h2 (L ++ [h.nextA]) = vals h L ++ [s] ∧ q2.size = q.size + 1 ∧
      q2.tail = some h.nextA ∧ h2.nextA = h.nextA + 2 := by
  obtain ⟨qh, qt, qs⟩ := q
  cases qt with
  | none =>
    -- the queue was empty
    have hLnil : L = [] := by
      have := seg_none_nil hw.bwd
      rwa [List.reverse_eq_nil_iff] at this
    subst hLnil
    have hqh : qh = none := hw.fwd
    have hqs : qs = 0 := hw.len.symm
    subst hqh hqs
    set a := h.nextA with ha_def
    set v : ListEle := ⟨some (a + 1), none, none⟩ with hv_def
    set H3 : Heap := ⟨upd (upd h.nodes a (some ⟨none, none, none⟩)) a (some v),
      upd h.strs (a + 1) (some s), a + 1 + 1⟩ with hH3_def
    have hH3a : H3.nodes a = some v := by
      show upd (upd h.nodes a _) a _ a = some v
      rw [upd_upd_same, upd_same]
    refine ⟨⟨some a, some a, 1⟩, H3, rfl, ?_, ?_, ?_, rfl, rfl, rfl⟩
    · refine ⟨⟨rfl, v, hH3a, rfl⟩, ⟨rfl, v, hH3a, rfl⟩, rfl, by simp, ?_, ?_⟩
      · intro c hc
        rw [List.nil_append, List.mem_singleton] at hc
        subst hc
        refine ⟨v, a + 1, s, hH3a, rfl, ?_⟩
        show upd h.strs (a + 1) (some s) (a + 1) = some s
        exact upd_same _ _ _
      · show (([] ++ [a]).map (valAddr H3)).Nodup
        simp
    · intro x hx
      replace hx : a + 1 + 1 ≤ x := hx
      have hx1 : x ≠ a := by omega
      have hx2 : x ≠ a + 1 := by omega
      constructor
      · show upd (upd h.nodes a _) a _ x = none
        rw [upd_upd_same, upd_ne _ _ hx1]
        exact (hf x (by omega)).1
      · show upd h.strs (a + 1) (some s) x = none
        rw [upd_ne _ _ hx2]
        exact (hf x (by omega)).2
    · show [valOf H3 a] = [s]
      have hva : valAddr H3 a = some (a + 1) := by
        unfold valAddr
        rw [hH3a]
        rfl
      rw [valOf_eq, hva]
      show [(H3.strs (a + 1)).getD []] = [s]
      rw [show H3.strs (a + 1) = some s from upd_same _ _ _]
      rfl
  | some tl =>
    -- the queue was non-empty: tl is the old tail node
    cases hLrev : L.reverse with
    | nil =>
      rw [List.reverse_eq_nil_iff] at hLrev
      subst hLrev
      exact absurd hw.bwd (by simp)
    | cons c u =>
    have hbwd := hw.bwd
    rw [hLrev] at hbwd
    obtain ⟨hc, tlN, htlnd, hbrest⟩ := hbwd
    have hcd : tl = c := by injection hc
    subst hcd
    have hLval : L = u.reverse ++ [tl] := by
      have := congrArg List.reverse hLrev
      rwa [List.reverse_reverse, List.reverse_cons] at this
    have htl_lt : tl < h.nextA := freshOk_lt_of_nodes hf htlnd
    have hmem_lt : ∀ c2 ∈ L, c2 < h.nextA := fun c2 hc2 => seg_mem_lt hw.fwd hf hc2
    have htlnotinu : tl ∉ u := by
      have hnd := hw.nodup
      rw [hLval, List.nodup_append] at hnd
      intro hmem
      exact hnd.2.2 (List.mem_reverse.mpr hmem) (List.mem_singleton.mpr rfl)
    -- split the old forward chain at the tail node
    have hfwd := hw.fwd
    rw [hLval] at hfwd
    obtain ⟨z, hz1, hz2⟩ := seg_split hfwd
    have hz_eq : z = some tl := hz2.1
    set a := h.nextA with ha_def
    set v : ListEle := ⟨some (a + 1), none, some tl⟩ with hv_def
    set H3 : Heap := ⟨upd (upd h.nodes a (some ⟨none, none, none⟩)) a (some v),
      upd h.strs (a + 1) (some s), a + 1 + 1⟩ with hH3_def
    have hH3nodes : ∀ c2, c2 ≠ a → H3.nodes c2 = h.nodes c2 := by
      intro c2 hc2
      show upd (upd h.nodes a _) a _ c2 = h.nodes c2
      rw [upd_upd_same, upd_ne _ _ hc2]
    have hH3a : H3.nodes a = some v := by
      show upd (upd h.nodes a _) a _ a = some v
      rw [upd_upd_same, upd_same]
    have hH3tl : H3.nodes tl = some tlN := by
      rw [hH3nodes tl (by omega)]
      exact htlnd
    set H4 : Heap := setNextAt H3 tl (some a) with hH4_def
    have hH4tl : H4.nodes tl = some { tlN with next := some a } :=
      setNextAt_nodes_self _ hH3tl
    have hH4ne : ∀ c2, c2 ≠ tl → H4.nodes c2 = H3.nodes c2 := fun c2 hc2 =>
      setNextAt_nodes_ne _ _ hc2
    have hH4a : H4.nodes a = some v := by rw [hH4ne a (by omega), hH3a]
    have hH4old : ∀ c2, c2 ≠ a → c2 ≠ tl → H4.nodes c2 = h.nodes c2 := by
      intro c2 hc1 hc2
      rw [hH4ne c2 hc2, hH3nodes c2 hc1]
    have hH4strs : H4.strs = upd h.strs (a + 1) (some s) := by
      rw [hH4_def, setNextAt_strs]
    have hH4nextA : H4.nextA = a + 1 + 1 := by rw [hH4_def, setNextAt_nextA]
    have hmapprev : ∀ c2 ∈ L, (H4.nodes c2).map ListEle.prev = (h.nodes c2).map ListEle.prev := by
      intro c2 hc2
      rw [hH4_def, setNextAt_map_prev]
      rw [hH3nodes c2 (by have := hmem_lt c2 hc2; omega)]
    have hvalmap : ∀ c2 ∈ L, (H4.nodes c2).map ListEle.value = (h.nodes c2).map ListEle.value := by
      intro c2 hc2
      rw [hH4_def, setNextAt_map_value]
      rw [hH3nodes c2 (by have := hmem_lt c2 hc2; omega)]
    refine ⟨⟨qh, some a, qs + 1⟩, H4, rfl, ?_, ?_, ?_, rfl, rfl, hH4nextA⟩
    · -- the representation invariant for the extended chain
      have p1 : seg H4 ListEle.next qh u.reverse (some tl) := by
        rw [hz_eq] at hz1
        refine seg_congr hz1 ?_
        intro c2 hc2
        have hc2u : c2 ∈ u := List.mem_reverse.mp hc2
        have hc2L : c2 ∈ L := by
          rw [hLval]
          exact List.mem_append_left _ hc2
        have hclt : c2 < a := hmem_lt c2 hc2L
        rw [hH4old c2 (by omega) (fun hch => htlnotinu (hch ▸ hc2u))]
      have p2 : seg H4 ListEle.next (some tl) [tl] (some a) :=
        ⟨rfl, ListEle.mk tlN.value (some a) tlN.prev, hH4tl, rfl⟩
      have p3 : seg H4 ListEle.next (some a) [a] none :=
        ⟨rfl, v, hH4a, rfl⟩
      have fwd4 : seg H4 ListEle.next qh (L ++ [a]) none := by
        have hap := seg_append (seg_append p1 p2) p3
        rw [hLval]
        exact hap
      have bwd4 : seg H4 ListEle.prev (some a) ((L ++ [a]).reverse) none := by
        have hrevlist : (L ++ [a]).reverse = a :: tl :: u := by
          rw [List.reverse_append, hLrev]
          rfl
        rw [hrevlist]
        refine ⟨rfl, v, hH4a, ?_⟩
        show seg H4 ListEle.prev (some tl) (tl :: u) none
        refine ⟨rfl, ListEle.mk tlN.value (some a) tlN.prev, hH4tl, ?_⟩
        show seg H4 ListEle.prev tlN.prev u none
        refine seg_congr hbrest ?_
        intro c2 hc2
        have hc2L : c2 ∈ L := by
          rw [hLval]
          exact List.mem_append_left _ (List.mem_reverse.mpr hc2)
        have hclt : c2 < a := hmem_lt c2 hc2L
        rw [hH4old c2 (by omega) (fun hch => htlnotinu (hch ▸ hc2))]
      refine ⟨fwd4, bwd4, by simpa using hw.len, ?_, ?_, ?_⟩
      · rw [List.nodup_append]
        refine ⟨hw.nodup, by simp, ?_⟩
        intro x hx hx2
        rw [List.mem_singleton] at hx2
        subst hx2
        exact absurd (hmem_lt _ hx) (by omega)
      · intro c2 hc2
        rcases List.mem_append.mp hc2 with hc2L | hc2a
        · obtain ⟨nd2, sb, sv, e1, e2, e3⟩ := hw.valsOk c2 hc2L
          have hsblt : sb < a := freshOk_lt_of_strs hf e3
          by_cases hch : c2 = tl
          · subst hch
            have hnd2 : nd2 = tlN := by
              rw [htlnd] at e1
              injection e1 with hval
              exact hval.symm
            refine ⟨ListEle.mk tlN.value (some a) tlN.prev, sb, sv, hH4tl, ?_, ?_⟩
            · show tlN.value = some sb
              rw [← hnd2]
              exact e2
            · rw [hH4strs, upd_ne _ _ (by omega)]
              exact e3
          · refine ⟨nd2, sb, sv, ?_, e2, ?_⟩
            · rw [hH4old c2 (by have := hmem_lt c2 hc2L; omega) hch]
              exact e1
            · rw [hH4strs, upd_ne _ _ (by omega)]
              exact e3
        · rw [List.mem_singleton] at hc2a
          subst hc2a
          refine ⟨v, a + 1, s, hH4a, rfl, ?_⟩
          rw [hH4strs]
          exact upd_same _ _ _
      · have hmapeq : L.map (valAddr H4) = L.map (valAddr h) :=
          List.map_congr_left fun c2 hc2 => valAddr_eq_of_map (hvalmap c2 hc2)
        have hva : valAddr H4 a = some (a + 1) := by
          unfold valAddr
          rw [hH4a]
          rfl
        show ((L ++ [a]).map (valAddr H4)).Nodup
        rw [List.map_append, hmapeq, List.map_singleton, hva, List.nodup_append]
        refine ⟨hw.valsNodup, by simp, ?_⟩
        intro x hx hx2
        rw [List.mem_singleton] at hx2
        subst hx2
        obtain ⟨c2, hc2, hceq⟩ := List.mem_map.mp hx
        obtain ⟨sb, hsb, hsblt⟩ := hw.valAddr_lt hf hc2
        rw [hsb] at hceq
        have : sb = a + 1 := by injection hceq
        omega
    · -- allocator freshness is preserved
      intro x hx
      rw [hH4nextA] at hx
      constructor
      · rw [hH4old x (by omega) (by omega)]
        exact (hf x (by omega)).1
      · rw [hH4strs, upd_ne _ _ (by omega)]
        exact (hf x (by omega)).2
    · -- stored values: s at the back, everything else untouched
      show (L ++ [a]).map (valOf H4) = L.map (valOf h) ++ [s]
      rw [List.map_append, List.map_singleton]
      congr 1
      · refine List.map_congr_left fun c2 hc2 => ?_
        rw [valOf_eq, valOf_eq, valAddr_eq_of_map (hvalmap c2 hc2)]
        obtain ⟨sb, hsb, hsblt⟩ := hw.valAddr_lt hf hc2
        rw [hsb]
        show ((H4.strs sb).getD []) = ((h.strs sb).getD [])
        rw [hH4strs, upd_ne _ _ (by omega)]
      · have hva : valAddr H4 a = some (a + 1) := by
          unfold valAddr
          rw [hH4a]
          rfl
        rw [valOf_eq, hva]
        show [(H4.strs (a + 1)).getD []] = [s]
        rw [hH4strs, show upd h.strs (a + 1) (some s) (a + 1) = some s from upd_same _ _ _]
        rfl

/-- Specification of a successful `queue_remove_head` on a well-formed
non-empty queue whose head node sits at address `a`: the call succeeds,
unlinks and frees the head node and its string, copies the stored value
into the buffer (when one is supplied), and hands back the stored value. -/
theorem remove_head_ok {q : QueueS} {h : Heap} {a : Nat} {L : List Nat}
    (buf : Option (Nat → Char)) (bufsize : Nat) (hw : WfRep q h (a :: L)) (hf : freshOk h) :
    ∃ q2 h2 sv, queue_remove_head (some q) buf bufsize h =
        (true, some q2, h2, buf.map (fun b => bufWrite b sv bufsize), some sv) ∧
      vals h (a :: L) = sv :: vals h L ∧
      WfRep q2 h2 L ∧ freshOk h2 ∧ vals h2 L = vals h L ∧
      q2.size = q.size - 1 ∧ h2.nodes a = none ∧
      (∃ nd, h.nodes a = some nd ∧ q2.head = nd.next) := by
  obtain ⟨qh, qt, qs⟩ := q
  obtain ⟨hqh, nd, hnd, hrest⟩ := hw.fwd
  subst hqh
  have hqs : qs = L.length + 1 := by
    have := hw.len
    simp at this
    omega
  have hqs0 : ¬ (qs = 0) := by omega
  obtain ⟨nd2, sa, sv, e1, e2, e3⟩ := hw.valsOk a (List.mem_cons_self a L)
  have hnd2 : nd2 = nd := by
    rw [hnd] at e1
    injection e1 with hval
    exact hval.symm
  have e2' : nd.value = some sa := by
    rw [← hnd2]
    exact e2
  have hrem : nd.value.bind h.strs = some sv := by
    rw [e2']
    exact e3
  have hvala : valAddr h a = some sa := by
    unfold valAddr
    rw [hnd]
    exact e2'
  have hvalofa : valOf h a = sv := by
    rw [valOf_eq, hvala]
    show (h.strs sa).getD [] = sv
    rw [e3]
    rfl
  have hanodup : a ∉ L := by
    have := hw.nodup
    rw [List.nodup_cons] at this
    exact this.1
  have hmem_lt : ∀ c ∈ a :: L, c < h.nextA := fun c hc => seg_mem_lt hw.fwd hf hc
  have hsb_ne_sa : ∀ c ∈ L, valAddr h c ≠ some sa := by
    intro c hc hceq
    have hvn := hw.valsNodup
    rw [List.map_cons, hvala, List.nodup_cons] at hvn
    exact hvn.1 (hceq ▸ List.mem_map_of_mem (valAddr h) hc)
  have hvals_cons : vals h (a :: L) = sv :: vals h L := by
    show valOf h a :: L.map (valOf h) = sv :: L.map (valOf h)
    rw [hvalofa]
  -- the heap after freeing the string and the node
  set H1 : Heap := ⟨upd h.nodes a none, upd h.strs sa none, h.nextA⟩ with hH1_def
  have hH1ne : ∀ c, c ≠ a → H1.nodes c = h.nodes c := by
    intro c hc
    show upd h.nodes a none c = h.nodes c
    rw [upd_ne _ _ hc]
  have hH1a : H1.nodes a = none := upd_same _ _ _
  have hH1strs : ∀ sb, sb ≠ sa → H1.strs sb = h.strs sb := by
    intro sb hsb
    show upd h.strs sa none sb = h.strs sb
    rw [upd_ne _ _ hsb]
  cases L with
  | nil =>
    -- removing the only element empties the queue
    have hnext : nd.next = none := hrest
    have hred : queue_remove_head (some ⟨some a, qt, qs⟩) buf bufsize h =
        (true, some ⟨none, none, qs - 1⟩, H1,
         buf.map (fun b => bufWrite b sv bufsize), some sv) := by
      cases buf with
      | none =>
        simp only [queue_remove_head]
        rw [if_neg hqs0]
        simp only [hnd, e2', hnext, e3]
        simp [e3]
      | some b =>
        simp only [queue_remove_head]
        rw [if_neg hqs0]
        simp only [hnd, e2', hnext, e3]
        simp [e3]
    refine ⟨⟨none, none, qs - 1⟩, H1, sv, hred, hvals_cons, ?_, ?_, rfl, rfl, hH1a,
      nd, hnd, hnext.symm⟩
    · exact ⟨rfl, rfl, by simp only [List.length_nil] at hqs ⊢; omega, by simp, by simp,
        by simp⟩
    · intro x hx
      replace hx : h.nextA ≤ x := hx
      constructor
      · show upd h.nodes a none x = none
        by_cases hxa : x = a
        · subst hxa
          exact upd_same _ _ _
        · rw [upd_ne _ _ hxa]
          exact (hf x hx).1
      · show upd h.strs sa none x = none
        by_cases hxs : x = sa
        · subst hxs
          exact upd_same _ _ _
        · rw [upd_ne _ _ hxs]
          exact (hf x hx).2
  | cons r t =>
    -- the queue keeps at least one element; r becomes the new head
    obtain ⟨hr_eq, rd, hrd, hrrest⟩ := hrest
    have hrnotint : r ∉ t := by
      have := hw.nodup
      rw [List.nodup_cons, List.nodup_cons] at this
      exact this.2.1
    have hra : r ≠ a := fun hcon => hanodup (hcon ▸ List.mem_cons_self r t)
    have hH1r : H1.nodes r = some rd := by
      rw [hH1ne r hra]
      exact hrd
    set H2 : Heap := setPrevAt H1 r none with hH2_def
    have hH2r : H2.nodes r = some { rd with prev := none } :=
      setPrevAt_nodes_self _ hH1r
    have hH2ne : ∀ c, c ≠ r → H2.nodes c = H1.nodes c := fun c hc =>
      setPrevAt_nodes_ne _ _ hc
    have hH2old : ∀ c, c ≠ a → c ≠ r → H2.nodes c = h.nodes c := by
      intro c hc1 hc2
      rw [hH2ne c hc2, hH1ne c hc1]
    have hH2a : H2.nodes a = none := by
      rw [hH2ne a (fun hcon => hra hcon.symm), hH1a]
    have hH2strs : ∀ sb, sb ≠ sa → H2.strs sb = h.strs sb := by
      intro sb hsb
      rw [hH2_def, setPrevAt_strs]
      exact hH1strs sb hsb
    have hH2nextA : H2.nextA = h.nextA := by rw [hH2_def, setPrevAt_nextA]
    have hmapnext : ∀ c ∈ r :: t,
        (H2.nodes c).map ListEle.next = (h.nodes c).map ListEle.next := by
      intro c hc
      rw [hH2_def, setPrevAt_map_next]
      rw [hH1ne c (fun hcon => hanodup (hcon ▸ hc))]
    have hvalmap : ∀ c ∈ r :: t,
        (H2.nodes c).map ListEle.value = (h.nodes c).map ListEle.value := by
      intro c hc
      rw [hH2_def, setPrevAt_map_value]
      rw [hH1ne c (fun hcon => hanodup (hcon ▸ hc))]
    have hvals_pres : vals H2 (r :: t) = vals h (r :: t) := by
      refine List.map_congr_left fun c hc => ?_
      rw [valOf_eq, valOf_eq, valAddr_eq_of_map (hvalmap c hc)]
      obtain ⟨ndc, sb, svc, f1, f2, f3⟩ := hw.valsOk c (List.mem_cons_of_mem _ hc)
      have hvc : valAddr h c = some sb := by
        unfold valAddr
        rw [f1]
        exact f2
      rw [hvc]
      have hsbne : sb ≠ sa := by
        intro hcon
        exact hsb_ne_sa c hc (by rw [hvc, hcon])
      show (H2.strs sb).getD [] = (h.strs sb).getD []
      rw [hH2strs sb hsbne]
    have hred : queue_remove_head (some ⟨some a, qt, qs⟩) buf bufsize h =
        (true, some ⟨some r, qt, qs - 1⟩, H2,
         buf.map (fun b => bufWrite b sv bufsize), some sv) := by
      cases buf with
      | none =>
        simp only [queue_remove_head]
        rw [if_neg hqs0]
        simp only [hnd, e2', hr_eq, e3]
        simp [e3]
      | some b =>
        simp only [queue_remove_head]
        rw [if_neg hqs0]
        simp only [hnd, e2', hr_eq, e3]
        simp [e3]
    refine ⟨⟨some r, qt, qs - 1⟩, H2, sv, hred, hvals_cons, ?_, ?_, hvals_pres, rfl, hH2a,
      nd, hnd, hr_eq.symm⟩
    · -- representation invariant for the shortened chain
      have fwd2 : seg H2 ListEle.next (some r) (r :: t) none := by
        refine seg_congr ?_ hmapnext
        exact ⟨rfl, rd, hrd, hrrest⟩
      have hbwd := hw.bwd
      rw [show (a :: r :: t).reverse = (t.reverse ++ [r]) ++ [a] from by
        rw [List.reverse_cons, List.reverse_cons]] at hbwd
      obtain ⟨y, hy1, hy2⟩ := seg_split hbwd
      have hy_eq : y = some a := hy2.1
      rw [hy_eq] at hy1
      obtain ⟨w, hw1, hw2⟩ := seg_split hy1
      have hw_eq : w = some r := hw2.1
      rw [hw_eq] at hw1
      have p1 : seg H2 ListEle.prev qt t.reverse (some r) := by
        refine seg_congr hw1 ?_
        intro c hc
        have hct : c ∈ t := List.mem_reverse.mp hc
        rw [hH2old c (fun hcon => hanodup (hcon ▸ List.mem_cons_of_mem _ hct))
          (fun hcon => hrnotint (hcon ▸ hct))]
      have p2 : seg H2 ListEle.prev (some r) [r] none :=
        ⟨rfl, ListEle.mk rd.value rd.next none, hH2r, rfl⟩
      have bwd2 : seg H2 ListEle.prev qt ((r :: t).reverse) none := by
        rw [List.reverse_cons]
        exact seg_append p1 p2
      refine ⟨fwd2, bwd2, by simp only [List.length_cons] at hqs ⊢; omega, ?_, ?_, ?_⟩
      · have := hw.nodup
        rw [List.nodup_cons] at this
        exact this.2
      · intro c hc
        obtain ⟨ndc, sb, svc, f1, f2, f3⟩ := hw.valsOk c (List.mem_cons_of_mem _ hc)
        have hsbne : sb ≠ sa := by
          intro hcon
          refine hsb_ne_sa c hc ?_
          unfold valAddr
          rw [f1]
          show ndc.value = some sa
          rw [f2, hcon]
        by_cases hcr : c = r
        · subst hcr
          have hndc : ndc = rd := by
            rw [hrd] at f1
            injection f1 with hval
            exact hval.symm
          refine ⟨ListEle.mk rd.value rd.next none, sb, svc, hH2r, ?_, ?_⟩
          · show rd.value = some sb
            rw [← hndc]
            exact f2
          · rw [hH2strs sb hsbne]
            exact f3
        · refine ⟨ndc, sb, svc, ?_, f2, ?_⟩
          · rw [hH2old c (fun hcon => hanodup (hcon ▸ hc)) hcr]
            exact f1
          · rw [hH2strs sb hsbne]
            exact f3
      · have hmapeq : (r :: t).map (valAddr H2) = (r :: t).map (valAddr h) :=
          List.map_congr_left fun c hc => valAddr_eq_of_map (hvalmap c hc)
        show ((r :: t).map (valAddr H2)).Nodup
        rw [hmapeq]
        have := hw.valsNodup
        rw [List.map_cons, List.nodup_cons] at this
        exact this.2
    · -- allocator freshness is preserved
      intro x hx
      rw [hH2nextA] at hx
      constructor
      · by_cases hxa : x = a
        · subst hxa
          exact hH2a
        · rw [hH2old x hxa (fun hcon => absurd (hmem_lt r (by simp)) (by omega))]
          exact (hf x hx).1
      · by_cases hxs : x = sa
        · subst hxs
          rw [hH2_def, setPrevAt_strs]
          exact upd_same _ _ _
        · rw [hH2strs x hxs]
          exact (hf x hx).2

/-- `queue_remove_head` on a NULL queue fails without touching anything. -/
theorem remove_head_fail_none (buf : Option (Nat → Char)) (bufsize : Nat) (h : Heap) :
    queue_remove_head none buf bufsize h = (false, none, h, buf, none) := rfl

/-- `queue_remove_head` on an empty queue fails without touching anything. -/
theorem remove_head_fail_empty {q : QueueS} (hq : q.size = 0) (buf : Option (Nat → Char))
    (bufsize : Nat) (h : Heap) :
    queue_remove_head (some q) buf bufsize h = (false, some q, h, buf, none) := by
  simp only [queue_remove_head]
  rw [if_pos hq]

/-- Any failing `queue_insert_head` returns the queue unchanged and leaves
both heaps pointwise as they were; in particular the partially allocated
node has been released. -/
theorem insert_head_fail {qo : Option QueueS} {s : List Char} {okN okS : Bool} {h : Heap}
    (hf : freshOk h) (hfail : (queue_insert_head qo s okN okS h).1 = false) :
    (queue_insert_head qo s okN okS h).2.1 = qo ∧
    (∀ x, ((queue_insert_head qo s okN okS h).2.2).nodes x = h.nodes x) ∧
    (∀ x, ((queue_insert_head qo s okN okS h).2.2).strs x = h.strs x) ∧
    h.nextA ≤ ((queue_insert_head qo s okN okS h).2.2).nextA := by
  cases qo with
  | none => exact ⟨rfl, fun x => rfl, fun x => rfl, le_rfl⟩
  | some q =>
    cases okN with
    | false => exact ⟨rfl, fun x => rfl, fun x => rfl, le_rfl⟩
    | true =>
      cases okS with
      | true =>
        exfalso
        rcases hq : q.head with _ | hd <;> simp [queue_insert_head, hq] at hfail
      | false =>
        refine ⟨rfl, ?_, fun x => rfl, by show h.nextA ≤ h.nextA + 1; omega⟩
        intro x
        show upd (upd h.nodes h.nextA (some ⟨none, none, none⟩)) h.nextA none x = h.nodes x
        rw [upd_upd_same]
        by_cases hx : x = h.nextA
        · subst hx
          rw [upd_same]
          exact ((hf _ le_rfl).1).symm
        · rw [upd_ne _ _ hx]

/-- Any failing `queue_insert_tail` returns the queue unchanged and leaves
both heaps pointwise as they were; in particular the partially allocated
node has been released. -/
theorem insert_tail_fail {qo : Option QueueS} {s : List Char} {okN okS : Bool} {h : Heap}
    (hf : freshOk h) (hfail : (queue_insert_tail qo s okN okS h).1 = false) :
    (queue_insert_tail qo s okN okS h).2.1 = qo ∧
    (∀ x, ((queue_insert_tail qo s okN okS h).2.2).nodes x = h.nodes x) ∧
    (∀ x, ((queue_insert_tail qo s okN okS h).2.2).strs x = h.strs x) ∧
    h.nextA ≤ ((queue_insert_tail qo s okN okS h).2.2).nextA := by
  cases qo with
  | none => exact ⟨rfl, fun x => rfl, fun x => rfl, le_rfl⟩
  | some q =>
    cases okN with
    | false => exact ⟨rfl, fun x => rfl, fun x => rfl, le_rfl⟩
    | true =>
      cases okS with
      | true =>
        exfalso
        rcases hq : q.tail with _ | tl <;> simp [queue_insert_tail, hq] at hfail
      | false =>
        refine ⟨rfl, ?_, fun x => rfl, by show h.nextA ≤ h.nextA + 1; omega⟩
        intro x
        show upd (upd h.nodes h.nextA (some ⟨none, none, none⟩)) h.nextA none x = h.nodes x
        rw [upd_upd_same]
        by_cases hx : x = h.nextA
        · subst hx
          rw [upd_same]
          exact ((hf _ le_rfl).1).symm
        · rw [upd_ne _ _ hx]

@[simp]
theorem map_next_swap (o : Option ListEle) :
    (o.map swapNode).map ListEle.next = o.map ListEle.prev := by
  cases o <;> rfl

@[simp]
theorem map_prev_swap (o : Option ListEle) :
    (o.map swapNode).map ListEle.prev = o.map ListEle.next := by
  cases o <;> rfl

@[simp]
theorem map_value_swap (o : Option ListEle) :
    (o.map swapNode).map ListEle.value = o.map ListEle.value := by
  cases o <;> rfl

/-- The reversal loop swaps the links of exactly the nodes on the chain it
walks and touches nothing else. -/
theorem reverseLoop_spec {h : Heap} {x : Option Nat} {M : List Nat}
    (hs : seg h ListEle.next x M none) (hnd : M.Nodup) :
    (∀ c ∈ M, (reverseLoop h x M.length).nodes c = (h.nodes c).map swapNode) ∧
    (∀ c, c ∉ M → (reverseLoop h x M.length).nodes c = h.nodes c) ∧
    (reverseLoop h x M.length).strs = h.strs ∧
    (reverseLoop h x M.length).nextA = h.nextA := by
  induction M generalizing x h with
  | nil =>
    have hx : x = none := hs
    subst hx
    exact ⟨fun c hc => absurd hc (List.not_mem_nil c), fun c _ => rfl, rfl, rfl⟩
  | cons c M ih =>
    obtain ⟨rfl, nd, hnd_c, hrest⟩ := hs
    rw [List.nodup_cons] at hnd
    set h1 : Heap := { h with nodes := upd h.nodes c (some (swapNode nd)) } with hh1_def
    have hred : reverseLoop h (some c) (c :: M).length = reverseLoop h1 nd.next M.length := by
      show reverseLoop h (some c) (M.length + 1) = reverseLoop h1 nd.next M.length
      simp only [reverseLoop, hnd_c]
    have hh1c : h1.nodes c = some (swapNode nd) := upd_same _ _ _
    have hh1ne : ∀ b, b ≠ c → h1.nodes b = h.nodes b := fun b hb => upd_ne _ _ hb
    have hrest1 : seg h1 ListEle.next nd.next M none := by
      refine seg_congr hrest ?_
      intro b hb
      rw [hh1ne b (fun hcon => hnd.1 (hcon ▸ hb))]
    obtain ⟨ih1, ih2, ih3, ih4⟩ := ih hrest1 hnd.2
    rw [hred]
    refine ⟨?_, ?_, ih3, ih4⟩
    · intro b hb
      rcases List.mem_cons.mp hb with rfl | hbM
      · rw [ih2 b hnd.1, hh1c, hnd_c]
        rfl
      · rw [ih1 b hbM, hh1ne b (fun hcon => hnd.1 (hcon ▸ hbM))]
    · intro b hb
      rw [List.mem_cons, not_or] at hb
      rw [ih2 b hb.2, hh1ne b hb.1]

/-- Specification of `queue_reverse` on a well-formed queue: the node chain
and the stored values are reversed, nothing is allocated or freed, and the
count is unchanged. -/
theorem reverse_ok {q : QueueS} {h : Heap} {L : List Nat} (hw : WfRep q h L) :
    ∃ q2 h2, queue_reverse (some q) h = (some q2, h2) ∧
      WfRep q2 h2 L.reverse ∧ vals h2 L.reverse = (vals h L).reverse ∧
      q2.size = q.size ∧ (∀ x, h2.strs x = h.strs x) ∧ h2.nextA = h.nextA ∧
      (∀ x, (h2.nodes x).map ListEle.value = (h.nodes x).map ListEle.value) := by
  obtain ⟨qh, qt, qs⟩ := q
  cases qh with
  | none =>
    have hL : L = [] := seg_none_nil hw.fwd
    subst hL
    exact ⟨⟨none, qt, qs⟩, h, rfl, hw, rfl, rfl, fun x => rfl, rfl, fun x => rfl⟩
  | some hd =>
    cases L with
    | nil => exact absurd hw.fwd (by simp)
    | cons b t =>
    obtain ⟨hb, nd, hnd, hrest⟩ := hw.fwd
    have hbd : hd = b := by injection hb
    subst hbd
    cases t with
    | nil =>
      -- single-element queue: the guard makes reverse a no-op
      have hnext : nd.next = none := hrest
      have hred : queue_reverse (some ⟨some hd, qt, qs⟩) h = (some ⟨some hd, qt, qs⟩, h) := by
        simp only [queue_reverse, hnd, hnext]
        rfl
      exact ⟨⟨some hd, qt, qs⟩, h, hred, hw, rfl, rfl, fun x => rfl, rfl, fun x => rfl⟩
    | cons r u =>
      obtain ⟨hr_eq, rd, hrd, hrrest⟩ := hrest
      have hqs : qs = (hd :: r :: u).length := hw.len.symm
      have hred : queue_reverse (some ⟨some hd, qt, qs⟩) h =
          (some ⟨qt, some hd, qs⟩, reverseLoop h (some hd) qs) := by
        simp only [queue_reverse, hnd, hr_eq]
        rfl
      set L0 : List Nat := hd :: r :: u with hL0_def
      have hfuel : reverseLoop h (some hd) qs = reverseLoop h (some hd) L0.length := by
        rw [hqs]
      obtain ⟨sp1, sp2, sp3, sp4⟩ := reverseLoop_spec hw.fwd hw.nodup
      set H2 : Heap := reverseLoop h (some hd) L0.length with hH2_def
      have hvalframe : ∀ x, (H2.nodes x).map ListEle.value = (h.nodes x).map ListEle.value := by
        intro x
        by_cases hx : x ∈ L0
        · rw [sp1 x hx, map_value_swap]
        · rw [sp2 x hx]
      have hmapnext : ∀ c ∈ L0.reverse,
          (H2.nodes c).map ListEle.next = (h.nodes c).map ListEle.prev := by
        intro c hc
        rw [sp1 c (List.mem_reverse.mp hc), map_next_swap]
      have hmapprev : ∀ c ∈ L0,
          (H2.nodes c).map ListEle.prev = (h.nodes c).map ListEle.next := by
        intro c hc
        rw [sp1 c hc, map_prev_swap]
      refine ⟨⟨qt, some hd, qs⟩, H2, by rw [hred, hfuel], ?_, ?_, rfl, ?_, sp4, hvalframe⟩
      · -- representation invariant of the reversed queue
        refine ⟨seg_congr hw.bwd hmapnext, ?_, by simpa using hw.len,
          List.nodup_reverse.mpr hw.nodup, ?_, ?_⟩
        · rw [List.reverse_reverse]
          exact seg_congr hw.fwd hmapprev
        · intro c hc
          have hcL : c ∈ L0 := List.mem_reverse.mp hc
          obtain ⟨ndc, sb, svc, f1, f2, f3⟩ := hw.valsOk c hcL
          refine ⟨swapNode ndc, sb, svc, ?_, f2, by rw [sp3]; exact f3⟩
          rw [sp1 c hcL, f1]
          rfl
        · have hmapeq : L0.reverse.map (valAddr H2) = L0.reverse.map (valAddr h) :=
            List.map_congr_left fun c hc =>
              valAddr_eq_of_map (hvalframe c)
          rw [hmapeq, List.map_reverse]
          exact List.nodup_reverse.mpr hw.valsNodup
      · -- the multiset of values is reversed with the chain
        have hmapeq : L0.reverse.map (valOf H2) = L0.reverse.map (valOf h) := by
          refine List.map_congr_left fun c hc => ?_
          rw [valOf_eq, valOf_eq, valAddr_eq_of_map (hvalframe c)]
          cases valAddr h c with
          | none => rfl
          | some sb =>
            show (H2.strs sb).getD [] = (h.strs sb).getD []
            rw [sp3]
        show L0.reverse.map (valOf H2) = (L0.map (valOf h)).reverse
        rw [hmapeq, List.map_reverse]
      · intro x
        rw [sp3]

theorem SIZE_T_MOD_eq : SIZE_T_MOD = 18446744073709551616 := by norm_num [SIZE_T_MOD]

theorem sizeSub1_eq {k : Nat} (h1 : 1 ≤ k) (h2 : k < SIZE_T_MOD) : sizeSub1 k = k - 1 := by
  unfold sizeSub1
  rw [SIZE_T_MOD_eq] at *
  omega

/-- Bytes at or beyond index `bufsize` are never touched by the copy, for
any `size_t` capacity of at least one. -/
theorem bufWrite_beyond {b : Nat → Char} {src : List Char} {k i : Nat}
    (h1 : 1 ≤ k) (h2 : k < SIZE_T_MOD) (hi : k ≤ i) :
    bufWrite b src k i = b i := by
  unfold bufWrite strncpyInto
  rw [sizeSub1_eq h1 h2, if_neg (by omega), if_neg (by omega)]

/-- The first `min (length src) (bufsize - 1)` bytes receive the copied
characters. -/
theorem bufWrite_copy {b : Nat → Char} {src : List Char} {k i : Nat}
    (h1 : 1 ≤ k) (h2 : k < SIZE_T_MOD) (hi : i < min src.length (k - 1)) :
    bufWrite b src k i = src.getD i NUL := by
  unfold bufWrite strncpyInto
  rw [sizeSub1_eq h1 h2, if_neg (by omega), if_pos (by omega)]

/-- A NUL terminator lands right after the copied characters, within the
first `bufsize` bytes. -/
theorem bufWrite_term {b : Nat → Char} {src : List Char} {k : Nat}
    (h1 : 1 ≤ k) (h2 : k < SIZE_T_MOD) :
    bufWrite b src k (min src.length (k - 1)) = NUL := by
  unfold bufWrite strncpyInto
  by_cases hc : src.length < k - 1
  · have hmin : min src.length (k - 1) = src.length := Nat.min_eq_left (le_of_lt hc)
    rw [hmin, sizeSub1_eq h1 h2, if_neg (by omega), if_pos (by omega)]
    exact List.getD_eq_default _ _ (le_refl _)
  · have hmin : min src.length (k - 1) = k - 1 := Nat.min_eq_right (by omega)
    rw [hmin, sizeSub1_eq h1 h2, if_pos rfl]

theorem bytesWritten_eq {k : Nat} (h1 : 1 ≤ k) (h2 : k < SIZE_T_MOD) :
    removeHeadBytesWritten k = k := by
  unfold removeHeadBytesWritten
  rw [sizeSub1_eq h1 h2]
  omega

/-- Mutual-inverse property of the two link chains: whenever a chain node
points forward to `m`, node `m` points back at it. -/
theorem seg_mutual {h : Heap} :
    ∀ (L : List Nat) (x y : Option Nat) (p : Option Nat),
      seg h ListEle.next x L none → seg h ListEle.prev y L.reverse p →
      ∀ a ∈ L, ∀ nd, h.nodes a = some nd → ∀ m, nd.next = some m →
        ∃ md, h.nodes m = some md ∧ md.prev = some a := by
  intro L
  induction L with
  | nil =>
    intro x y p _ _ a ha
    cases ha
  | cons a0 rest ih =>
    intro x y p hfwd hbwd b hb nd hnd m hm
    obtain ⟨hx, nd0, hnd0, hrest⟩ := hfwd
    rw [List.reverse_cons] at hbwd
    obtain ⟨z, hz1, hz2⟩ := seg_split hbwd
    have hz_eq : z = some a0 := hz2.1
    rw [hz_eq] at hz1
    rcases List.mem_cons.mp hb with rfl | hbrest
    · have hndeq : nd = nd0 := by
        rw [hnd0] at hnd
        injection hnd with hval
        exact hval.symm
      subst hndeq
      cases rest with
      | nil =>
        have hnone : nd.next = none := hrest
        rw [hm] at hnone
        exact absurd hnone (by simp)
      | cons r t =>
        obtain ⟨hr, rd, hrd, _⟩ := hrest
        have hmr : m = r := by
          rw [hm] at hr
          injection hr
        subst hmr
        rw [List.reverse_cons] at hz1
        obtain ⟨w, hw1, hw2⟩ := seg_split hz1
        obtain ⟨hw_eq, rd', hrd', hprev⟩ := hw2
        exact ⟨rd', hrd', hprev⟩
    · exact ih nd0.next y (some a0) hrest hz1 b hbrest nd hnd m hm

/-- The operations of the component, with their allocation oracles.  Used
to quantify over "every operation". -/
inductive QOp where
  | create (ok : Bool)
  | insH (s : List Char) (okN okS : Bool)
  | insT (s : List Char) (okN okS : Bool)
  | remH (bufsize : Nat)
  | rev

/-- Apply one operation to a queue-and-store state (the output buffer of a
removal does not influence the queue state, so none is passed). -/
def applyOp (st : Option QueueS × Heap) : QOp → Option QueueS × Heap
  | QOp.create ok => (queue_new ok, st.2)
  | QOp.insH s okN okS =>
    ((queue_insert_head st.1 s okN okS st.2).2.1, (queue_insert_head st.1 s okN okS st.2).2.2)
  | QOp.insT s okN okS =>
    ((queue_insert_tail st.1 s okN okS st.2).2.1, (queue_insert_tail st.1 s okN okS st.2).2.2)
  | QOp.remH bufsize =>
    ((queue_remove_head st.1 none bufsize st.2).2.1,
     (queue_remove_head st.1 none bufsize st.2).2.2.1)
  | QOp.rev => queue_reverse st.1 st.2

/-- Global well-formedness of a state: fresh allocator, and when a queue is
present it is represented by some chain. -/
def WFState (st : Option QueueS × Heap) : Prop :=
  freshOk st.2 ∧ ∀ q, st.1 = some q → ∃ L, WfRep q st.2 L

/-- The structural invariants named by the specification, for the state
after an operation: count / head / tail emptiness agree, and the two link
chains are mutual inverses on the queue's nodes. -/
def structOK (st : Option QueueS × Heap) : Prop :=
  ∀ q, st.1 = some q →
    ((q.size = 0 ↔ q.head = none) ∧ (q.head = none ↔ q.tail = none)) ∧
    ∃ L, seg st.2 ListEle.next q.head L none ∧ L.length = q.size ∧
      ∀ a ∈ L, ∀ nd, st.2.nodes a = some nd → ∀ m, nd.next = some m →
        ∃ md, st.2.nodes m = some md ∧ md.prev = some a

/-- A well-formed representation yields all the named structural
invariants. -/
theorem WfRep.structProps {q : QueueS} {h : Heap} {L : List Nat} (hw : WfRep q h L) :
    ((q.size = 0 ↔ q.head = none) ∧ (q.head = none ↔ q.tail = none)) ∧
    ∃ L2, seg h ListEle.next q.head L2 none ∧ L2.length = q.size ∧
      ∀ a ∈ L2, ∀ nd, h.nodes a = some nd → ∀ m, nd.next = some m →
        ∃ md, h.nodes m = some md ∧ md.prev = some a := by
  have hhead : q.head = none ↔ L = [] := by
    constructor
    · intro h0
      exact seg_none_nil (h0 ▸ hw.fwd)
    · intro h0
      subst h0
      exact hw.fwd
  have htail : q.tail = none ↔ L = [] := by
    constructor
    · intro h0
      have := seg_none_nil (h0 ▸ hw.bwd)
      rwa [List.reverse_eq_nil_iff] at this
    · intro h0
      subst h0
      exact hw.bwd
  have hsize : q.size = 0 ↔ L = [] := by
    rw [← hw.len, List.length_eq_zero]
  refine ⟨⟨hsize.trans hhead.symm, hhead.trans htail.symm⟩,
    L, hw.fwd, hw.len, seg_mutual L q.head q.tail none hw.fwd hw.bwd⟩

/-- Tail-insert every string of `xs` in order, with all allocations
succeeding. -/
def insertAllTail : Option QueueS × Heap → List (List Char) → Option QueueS × Heap
  | st, [] => st
  | st, s :: rest =>
    insertAllTail ((queue_insert_tail st.1 s true true st.2).2.1,
                   (queue_insert_tail st.1 s true true st.2).2.2) rest

/-- Remove from the head `n` times (with no output buffer), collecting the
removed string values; stops early if a removal fails. -/
def runRemovals : Option QueueS × Heap → Nat → List (List Char)
  | _, 0 => []
  | st, n + 1 =>
    match queue_remove_head st.1 none 0 st.2 with
    | (true, q2, h2, _, some v) => v :: runRemovals (q2, h2) n
    | _ => []

/-- Running all tail inserts on a well-formed state succeeds and appends
the inserted values. -/
theorem insertAllTail_spec :
    ∀ (xs : List (List Char)) {q : QueueS} {h : Heap} {L : List Nat},
      WfRep q h L → freshOk h →
      ∃ q2 h2 L2, insertAllTail (some q, h) xs = (some q2, h2) ∧
        WfRep q2 h2 L2 ∧ freshOk h2 ∧ vals h2 L2 = vals h L ++ xs := by
  intro xs
  induction xs with
  | nil =>
    intro q h L hw hf
    exact ⟨q, h, L, rfl, hw, hf, by simp⟩
  | cons s rest ih =>
    intro q h L hw hf
    obtain ⟨q2, h2, heq, hw2, hf2, hvals2, _, _, _⟩ := insert_tail_ok s hw hf
    obtain ⟨q3, h3, L3, heq3, hw3, hf3, hvals3⟩ := ih hw2 hf2
    refine ⟨q3, h3, L3, ?_, hw3, hf3, ?_⟩
    · show insertAllTail ((queue_insert_tail (some q) s true true h).2.1,
        (queue_insert_tail (some q) s true true h).2.2) rest = (some q3, h3)
      rw [heq]
      exact heq3
    · rw [hvals3, hvals2]
      simp

/-- Removing as many values as the chain holds returns exactly the stored
values in order. -/
theorem runRemovals_spec :
    ∀ (L : List Nat) {q : QueueS} {h : Heap},
      WfRep q h L → freshOk h → runRemovals (some q, h) L.length = vals h L := by
  intro L
  induction L with
  | nil =>
    intro q h _ _
    rfl
  | cons a M ih =>
    intro q h hw hf
    obtain ⟨q2, h2, sv, hred, hvals_cons, hw2, hf2, hvals2, _, _, _⟩ :=
      remove_head_ok none 0 hw hf
    show (match queue_remove_head (some q) none 0 h with
      | (true, q2, h2, _, some v) => v :: runRemovals (q2, h2) M.length
      | _ => []) = vals h (a :: M)
    rw [hred]
    show sv :: runRemovals (some q2, h2) M.length = vals h (a :: M)
    rw [ih hw2 hf2, hvals2, hvals_cons]

/-- The empty queue is represented by the empty chain in any store. -/
theorem wf_empty_any (h : Heap) : WfRep ⟨none, none, 0⟩ h [] :=
  ⟨rfl, rfl, rfl, by simp, by simp, by simp⟩

theorem wf_empty : WfRep ⟨none, none, 0⟩ emptyHeap [] := wf_empty_any emptyHeap

theorem fresh_empty : freshOk emptyHeap := fun _ _ => ⟨rfl, rfl⟩

/-- A heap with the same allocator counter, the same string cells, and
node cells of unchanged occupancy is fresh whenever the original was. -/
theorem freshOk_of_frames {h h2 : Heap} (hf : freshOk h)
    (hval : ∀ x, (h2.nodes x).map ListEle.value = (h.nodes x).map ListEle.value)
    (hstrs : ∀ x, h2.strs x = h.strs x) (hna : h2.nextA = h.nextA) : freshOk h2 := by
  intro x hx
  rw [hna] at hx
  constructor
  · have hv := hval x
    rw [(hf x hx).1] at hv
    simpa [Option.map_eq_none'] using hv
  · rw [hstrs x]
    exact (hf x hx).2

/-- Unconditional frame facts about the reversal loop: it never touches
string cells, the allocator, or any node's occupancy or value field. -/
theorem reverseLoop_frame :
    ∀ (f : Nat) (x : Option Nat) (h : Heap),
      (reverseLoop h x f).strs = h.strs ∧ (reverseLoop h x f).nextA = h.nextA ∧
      ∀ b, ((reverseLoop h x f).nodes b).map ListEle.value =
        (h.nodes b).map ListEle.value := by
  intro f
  induction f with
  | zero =>
    intro x h
    cases x <;> exact ⟨rfl, rfl, fun b => rfl⟩
  | succ n ih =>
    intro x h
    cases x with
    | none => exact ⟨rfl, rfl, fun b => rfl⟩
    | some c =>
      cases hc : h.nodes c with
      | none =>
        rw [show reverseLoop h (some c) (n + 1) = h from by simp only [reverseLoop, hc]]
        exact ⟨rfl, rfl, fun b => rfl⟩
      | some nd =>
        have hred : reverseLoop h (some c) (n + 1) =
            reverseLoop { h with nodes := upd h.nodes c (some (swapNode nd)) } nd.next n := by
          simp only [reverseLoop, hc]
        obtain ⟨i1, i2, i3⟩ := ih nd.next { h with nodes := upd h.nodes c (some (swapNode nd)) }
        refine ⟨by rw [hred, i1], by rw [hred, i2], fun b => ?_⟩
        rw [hred, i3 b]
        by_cases hb : b = c
        · subst hb
          show (upd h.nodes b (some (swapNode nd)) b).map ListEle.value =
            (h.nodes b).map ListEle.value
          rw [upd_same, hc]
          rfl
        · show (upd h.nodes c (some (swapNode nd)) b).map ListEle.value =
            (h.nodes b).map ListEle.value
          rw [upd_ne _ _ hb]

/-- Size accounting of one head insert, for any oracle outcome. -/
theorem insert_head_size (q : QueueS) (s : List Char) (okN okS : Bool) (h : Heap) :
    ∃ q2, (queue_insert_head (some q) s okN okS h).2.1 = some q2 ∧
      q2.size = q.size + cond (queue_insert_head (some q) s okN okS h).1 1 0 := by
  obtain ⟨qh, qt, qs⟩ := q
  cases okN with
  | false => exact ⟨_, rfl, by simp [queue_insert_head]⟩
  | true =>
    cases okS with
    | false => exact ⟨_, rfl, by simp [queue_insert_head]⟩
    | true =>
      cases qh with
      | none => exact ⟨_, rfl, by simp [queue_insert_head]⟩
      | some hd => exact ⟨_, rfl, by simp [queue_insert_head]⟩

/-- Size accounting of one tail insert, for any oracle outcome. -/
theorem insert_tail_size (q : QueueS) (s : List Char) (okN okS : Bool) (h : Heap) :
    ∃ q2, (queue_insert_tail (some q) s okN okS h).2.1 = some q2 ∧
      q2.size = q.size + cond (queue_insert_tail (some q) s okN okS h).1 1 0 := by
  obtain ⟨qh, qt, qs⟩ := q
  cases okN with
  | false => exact ⟨_, rfl, by simp [queue_insert_tail]⟩
  | true =>
    cases okS with
    | false => exact ⟨_, rfl, by simp [queue_insert_tail]⟩
    | true =>
      cases qt with
      | none => exact ⟨_, rfl, by simp [queue_insert_tail]⟩
      | some tl => exact ⟨_, rfl, by simp [queue_insert_tail]⟩

/-- Size accounting of one removal, for any queue contents. -/
theorem remove_head_size (q : QueueS) (buf : Option (Nat → Char)) (bufsize : Nat) (h : Heap) :
    ∃ q2, (queue_remove_head (some q) buf bufsize h).2.1 = some q2 ∧
      q.size = q2.size + cond (queue_remove_head (some q) buf bufsize h).1 1 0 := by
  obtain ⟨qh, qt, qs⟩ := q
  by_cases hqs : qs = 0
  · have hred := @remove_head_fail_empty ⟨qh, qt, qs⟩ hqs buf bufsize h
    refine ⟨⟨qh, qt, qs⟩, by rw [hred], ?_⟩
    rw [hred]
    simp
  · cases qh with
    | none =>
      refine ⟨⟨none, qt, qs⟩, ?_, ?_⟩ <;> simp [queue_remove_head, hqs]
    | some a =>
      cases hnd : h.nodes a with
      | none =>
        refine ⟨⟨some a, qt, qs⟩, ?_, ?_⟩ <;> simp [queue_remove_head, hqs, hnd]
      | some nd =>
        refine ⟨⟨nd.next, if nd.next = none then none else qt, qs - 1⟩, ?_, ?_⟩ <;>
          · simp [queue_remove_head, hqs, hnd]
            try omega

/-- Insert/remove traces, used to count successful operations. -/
inductive TOp where
  | insH (s : List Char) (okN okS : Bool)
  | insT (s : List Char) (okN okS : Bool)
  | remH (bufsize : Nat)

/-- One trace step: the next state together with flags saying whether the
step was a successful insert resp. a successful removal. -/
def stepT (st : Option QueueS × Heap) : TOp → (Option QueueS × Heap) × Bool × Bool
  | TOp.insH s okN okS =>
    (((queue_insert_head st.1 s okN okS st.2).2.1, (queue_insert_head st.1 s okN okS st.2).2.2),
     (queue_insert_head st.1 s okN okS st.2).1, false)
  | TOp.insT s okN okS =>
    (((queue_insert_tail st.1 s okN okS st.2).2.1, (queue_insert_tail st.1 s okN okS st.2).2.2),
     (queue_insert_tail st.1 s okN okS st.2).1, false)
  | TOp.remH bufsize =>
    (((queue_remove_head st.1 none bufsize st.2).2.1,
      (queue_remove_head st.1 none bufsize st.2).2.2.1),
     false, (queue_remove_head st.1 none bufsize st.2).1)

/-- Run a trace, returning the final state, the number of successful
inserts and the number of successful removals. -/
def runT (st : Option QueueS × Heap) : List TOp → (Option QueueS × Heap) × Nat × Nat
  | [] => (st, 0, 0)
  | op :: rest =>
    ((runT (stepT st op).1 rest).1,
     cond (stepT st op).2.1 1 0 + (runT (stepT st op).1 rest).2.1,
     cond (stepT st op).2.2 1 0 + (runT (stepT st op).1 rest).2.2)

/-- The queue stays present along a trace and its count balances the
successful inserts against the successful removals. -/
theorem runT_size :
    ∀ (ops : List TOp) (q : QueueS) (h : Heap),
      ∃ q2, (runT (some q, h) ops).1.1 = some q2 ∧
        q2.size + (runT (some q, h) ops).2.2 = q.size + (runT (some q, h) ops).2.1 := by
  intro ops
  induction ops with
  | nil =>
    intro q h
    exact ⟨q, rfl, rfl⟩
  | cons op rest ih =>
    intro q h
    cases op with
    | insH s okN okS =>
      obtain ⟨q1, hq1, hsz⟩ := insert_head_size q s okN okS h
      obtain ⟨q2, hq2, hinv⟩ := ih q1 (queue_insert_head (some q) s okN okS h).2.2
      simp only [runT, stepT]
      rw [hq1]
      refine ⟨q2, hq2, ?_⟩
      cases hr : (queue_insert_head (some q) s okN okS h).1 <;> rw [hr] at hsz <;>
        simp at hsz ⊢ <;> omega
    | insT s okN okS =>
      obtain ⟨q1, hq1, hsz⟩ := insert_tail_size q s okN okS h
      obtain ⟨q2, hq2, hinv⟩ := ih q1 (queue_insert_tail (some q) s okN okS h).2.2
      simp only [runT, stepT]
      rw [hq1]
      refine ⟨q2, hq2, ?_⟩
      cases hr : (queue_insert_tail (some q) s okN okS h).1 <;> rw [hr] at hsz <;>
        simp at hsz ⊢ <;> omega
    | remH bufsize =>
      obtain ⟨q1, hq1, hsz⟩ := remove_head_size q none bufsize h
      obtain ⟨q2, hq2, hinv⟩ := ih q1 (queue_remove_head (some q) none bufsize h).2.2.1
      simp only [runT, stepT]
      rw [hq1]
      refine ⟨q2, hq2, ?_⟩
      cases hr : (queue_remove_head (some q) none bufsize h).1 <;> rw [hr] at hsz <;>
        simp at hsz ⊢ <;> omega

/-- A concrete one-element well-formed queue used to instantiate theorems
with hypotheses: one node at address 0 owning the string "abc" at string
address 1. -/
def witQueue : QueueS := ⟨some 0, some 0, 1⟩

def witHeap : Heap :=
  ⟨upd (fun _ => none) 0 (some ⟨some 1, none, none⟩),
   upd (fun _ => none) 1 (some ['a', 'b', 'c']), 2⟩

def witBuf : Nat → Char := fun _ => 'x'

theorem witWf : WfRep witQueue witHeap [0] := by
  refine ⟨⟨rfl, ⟨some 1, none, none⟩, rfl, rfl⟩, ⟨rfl, ⟨some 1, none, none⟩, rfl, rfl⟩,
    rfl, by simp, ?_, by simp⟩
  intro c hc
  rw [List.mem_singleton] at hc
  subst hc
  exact ⟨⟨some 1, none, none⟩, 1, ['a', 'b', 'c'], rfl, rfl, rfl⟩

theorem witFresh : freshOk witHeap := by
  intro x hx
  replace hx : 2 ≤ x := hx
  constructor
  · show upd (fun _ => none) 0 (some (ListEle.mk (some 1) none none)) x = none
    rw [upd_ne _ _ (by omega)]
  · show upd (fun _ => none) 1 (some ['a', 'b', 'c']) x = none
    rw [upd_ne _ _ (by omega)]

/-- Equal value-field maps force equal occupancy. -/
theorem isSome_of_map_value {o1 o2 : Option ListEle}
    (he : o1.map ListEle.value = o2.map ListEle.value) : o1.isSome = o2.isSome := by
  cases o1 <;> cases o2 <;> simp_all

/-- `queue_insert_head` preserves global well-formedness for every oracle
outcome. -/
theorem WFState_insert_head (s : List Char) (okN okS : Bool) {st : Option QueueS × Heap}
    (hst : WFState st) :
    WFState ((queue_insert_head st.1 s okN okS st.2).2.1,
             (queue_insert_head st.1 s okN okS st.2).2.2) := by
  obtain ⟨hf, hq⟩ := hst
  by_cases hfail : (queue_insert_head st.1 s okN okS st.2).1 = false
  · obtain ⟨e1, e2, e3, e4⟩ := insert_head_fail hf hfail
    constructor
    · intro x hx
      rw [e2 x, e3 x]
      exact hf x (le_trans e4 hx)
    · intro q hqe
      rw [e1] at hqe
      obtain ⟨L, hw⟩ := hq q hqe
      exact ⟨L, WfRep_congr e2 e3 hw⟩
  · rcases hst1 : st.1 with _ | q
    · rw [hst1] at hfail
      exact absurd rfl hfail
    · cases okN with
      | false =>
        rw [hst1] at hfail
        exact absurd rfl hfail
      | true =>
        cases okS with
        | false =>
          rw [hst1] at hfail
          exact absurd rfl hfail
        | true =>
          obtain ⟨L, hw⟩ := hq q hst1
          obtain ⟨q2, h2, heq, hw2, hf2, _, _, _, _⟩ := insert_head_ok s hw hf
          rw [heq]
          refine ⟨hf2, fun q' hqe => ?_⟩
          injection hqe with hq'
          exact hq' ▸ ⟨st.2.nextA :: L, hw2⟩

/-- `queue_insert_tail` preserves global well-formedness for every oracle
outcome. -/
theorem WFState_insert_tail (s : List Char) (okN okS : Bool) {st : Option QueueS × Heap}
    (hst : WFState st) :
    WFState ((queue_insert_tail st.1 s okN okS st.2).2.1,
             (queue_insert_tail st.1 s okN okS st.2).2.2) := by
  obtain ⟨hf, hq⟩ := hst
  by_cases hfail : (queue_insert_tail st.1 s okN okS st.2).1 = false
  · obtain ⟨e1, e2, e3, e4⟩ := insert_tail_fail hf hfail
    constructor
    · intro x hx
      rw [e2 x, e3 x]
      exact hf x (le_trans e4 hx)
    · intro q hqe
      rw [e1] at hqe
      obtain ⟨L, hw⟩ := hq q hqe
      exact ⟨L, WfRep_congr e2 e3 hw⟩
  · rcases hst1 : st.1 with _ | q
    · rw [hst1] at hfail
      exact absurd rfl hfail
    · cases okN with
      | false =>
        rw [hst1] at hfail
        exact absurd rfl hfail
      | true =>
        cases okS with
        | false =>
          rw [hst1] at hfail
          exact absurd rfl hfail
        | true =>
          obtain ⟨L, hw⟩ := hq q hst1
          obtain ⟨q2, h2, heq, hw2, hf2, _, _, _, _⟩ := insert_tail_ok s hw hf
          rw [heq]
          refine ⟨hf2, fun q' hqe => ?_⟩
          injection hqe with hq'
          exact hq' ▸ ⟨L ++ [st.2.nextA], hw2⟩

/-- `queue_remove_head` preserves global well-formedness. -/
theorem WFState_remove_head (bufsize : Nat) {st : Option QueueS × Heap}
    (hst : WFState st) :
    WFState ((queue_remove_head st.1 none bufsize st.2).2.1,
             (queue_remove_head st.1 none bufsize st.2).2.2.1) := by
  obtain ⟨hf, hq⟩ := hst
  rcases hst1 : st.1 with _ | q
  · exact ⟨hf, fun q hqe => by simp [queue_remove_head] at hqe⟩
  · obtain ⟨L, hw⟩ := hq q hst1
    cases L with
    | nil =>
      have hqs : q.size = 0 := hw.len.symm
      rw [remove_head_fail_empty hqs none bufsize st.2]
      refine ⟨hf, fun q' hqe => ?_⟩
      injection hqe with hq'
      exact hq' ▸ ⟨[], hw⟩
    | cons a M =>
      obtain ⟨q2, h2, sv, hred, _, hw2, hf2, _, _, _, _⟩ := remove_head_ok none bufsize hw hf
      rw [hred]
      refine ⟨hf2, fun q' hqe => ?_⟩
      injection hqe with hq'
      exact hq' ▸ ⟨M, hw2⟩

/-- `queue_reverse` preserves global well-formedness. -/
theorem WFState_reverse {st : Option QueueS × Heap} (hst : WFState st) :
    WFState (queue_reverse st.1 st.2) := by
  obtain ⟨hf, hq⟩ := hst
  rcases hst1 : st.1 with _ | q
  · exact ⟨hf, fun q hqe => by simp [queue_reverse] at hqe⟩
  · obtain ⟨L, hw⟩ := hq q hst1
    obtain ⟨q2, h2, heq, hw2, _, _, hstrs, hna, hval⟩ := reverse_ok hw
    rw [heq]
    refine ⟨freshOk_of_frames hf hval hstrs hna, fun q' hqe => ?_⟩
    injection hqe with hq'
    exact hq' ▸ ⟨L.reverse, hw2⟩

/-- C1 (amended: the capacity must be a positive `size_t` value, `1 ≤
bufsize < 2^64`): every `queue_remove_head` on a well-formed non-empty
queue with a supplied buffer stores at most `bufsize` bytes, never touches
any byte at index `bufsize` or beyond, writes the first `min (len, bufsize
- 1)` characters of the removed string, and places a NUL terminator
immediately after them, within bounds — including the truncating case.
The original claim's "for every value of bufsize" fails at `bufsize = 0`,
where the `size_t` subtraction on queue.c line 193 wraps around; see the
counterexample. -/
theorem c1_remove_head_buffer_safety {q : QueueS} {h : Heap} {a : Nat} {L : List Nat}
    (b : Nat → Char) (bufsize : Nat) (hw : WfRep q h (a :: L)) (hf : freshOk h)
    (h1 : 1 ≤ bufsize) (h2 : bufsize < SIZE_T_MOD) :
    ∃ q2 h2b v,
      queue_remove_head (some q) (some b) bufsize h =
        (true, some q2, h2b, some (bufWrite b v bufsize), some v) ∧
      removeHeadBytesWritten bufsize ≤ bufsize ∧
      (∀ i, bufsize ≤ i → bufWrite b v bufsize i = b i) ∧
      (∀ i, i < min v.length (bufsize - 1) → bufWrite b v bufsize i = v.getD i NUL) ∧
      bufWrite b v bufsize (min v.length (bufsize - 1)) = NUL ∧
      min v.length (bufsize - 1) < bufsize := by
  obtain ⟨q2, h2b, sv, hred, _, _, _, _, _, _, _⟩ := remove_head_ok (some b) bufsize hw hf
  refine ⟨q2, h2b, sv, by rw [hred]; rfl, ?_, ?_, ?_, ?_, ?_⟩
  · rw [bytesWritten_eq h1 h2]
  · exact fun i hi => bufWrite_beyond h1 h2 hi
  · exact fun i hi => bufWrite_copy h1 h2 hi
  · exact bufWrite_term h1 h2
  · have := Nat.min_le_right sv.length (bufsize - 1)
    omega

theorem c1_witness :
    ∃ q2 h2b v,
      queue_remove_head (some witQueue) (some witBuf) 2 witHeap =
        (true, some q2, h2b, some (bufWrite witBuf v 2), some v) ∧
      removeHeadBytesWritten 2 ≤ 2 ∧
      (∀ i, 2 ≤ i → bufWrite witBuf v 2 i = witBuf i) ∧
      (∀ i, i < min v.length (2 - 1) → bufWrite witBuf v 2 i = v.getD i NUL) ∧
      bufWrite witBuf v 2 (min v.length (2 - 1)) = NUL ∧
      min v.length (2 - 1) < 2 :=
  c1_remove_head_buffer_safety witBuf 2 witWf witFresh (by omega)
    (by rw [SIZE_T_MOD_eq]; omega)

/-- C1 counterexample: with a zero-capacity buffer the `size_t`
subtraction of queue.c line 193 wraps to `2^64 - 1`, so the call stores
`2^64` bytes — not at most 0 — and the byte at index 5, far beyond the
buffer, is overwritten. -/
theorem c1_counterexample :
    ¬ (removeHeadBytesWritten 0 ≤ 0) ∧
    ∃ b2, (queue_remove_head (some witQueue) (some witBuf) 0 witHeap).2.2.2.1 = some b2 ∧
      ¬ (b2 5 = witBuf 5) := by
  refine ⟨?_, bufWrite witBuf ['a', 'b', 'c'] 0, ?_, ?_⟩
  · simp only [removeHeadBytesWritten, sizeSub1, SIZE_T_MOD_eq]
    omega
  · rfl
  · decide

/-- C2: a failing insert (absent queue, node-allocation failure, or
string-copy-allocation failure) returns the queue unchanged, leaves every
node and string cell as it was, and in particular the cell the node would
have occupied is unallocated — the partial node has been released. -/
theorem c2_insert_failure_rollback (qo : Option QueueS) (s : List Char) (okN okS : Bool)
    (h : Heap) (hf : freshOk h) :
    ((queue_insert_head qo s okN okS h).1 = false →
      (queue_insert_head qo s okN okS h).2.1 = qo ∧
      (∀ x, ((queue_insert_head qo s okN okS h).2.2).nodes x = h.nodes x) ∧
      (∀ x, ((queue_insert_head qo s okN okS h).2.2).strs x = h.strs x) ∧
      ((queue_insert_head qo s okN okS h).2.2).nodes h.nextA = none) ∧
    ((queue_insert_tail qo s okN okS h).1 = false →
      (queue_insert_tail qo s okN okS h).2.1 = qo ∧
      (∀ x, ((queue_insert_tail qo s okN okS h).2.2).nodes x = h.nodes x) ∧
      (∀ x, ((queue_insert_tail qo s okN okS h).2.2).strs x = h.strs x) ∧
      ((queue_insert_tail qo s okN okS h).2.2).nodes h.nextA = none) := by
  constructor
  · intro hfail
    obtain ⟨e1, e2, e3, _⟩ := insert_head_fail hf hfail
    exact ⟨e1, e2, e3, by rw [e2]; exact (hf _ le_rfl).1⟩
  · intro hfail
    obtain ⟨e1, e2, e3, _⟩ := insert_tail_fail hf hfail
    exact ⟨e1, e2, e3, by rw [e2]; exact (hf _ le_rfl).1⟩

theorem c2_witness :
    (queue_insert_head (some ⟨none, none, 0⟩) ['a'] true false emptyHeap).2.1 =
      some ⟨none, none, 0⟩ ∧
    (∀ x, ((queue_insert_head (some ⟨none, none, 0⟩) ['a'] true false emptyHeap).2.2).nodes x =
      emptyHeap.nodes x) := by
  have happ := c2_insert_failure_rollback (some ⟨none, none, 0⟩) ['a'] true false emptyHeap
    fresh_empty
  have hh := happ.1 rfl
  exact ⟨hh.1, hh.2.1⟩

/-- C3: `queue_remove_head` fails — with every component untouched —
exactly when the queue handle is NULL or the queue is empty; on any other
well-formed call it succeeds, detaches and frees the head node, advances
the head to its successor, and decrements the count. -/
theorem c3_remove_head_failure_characterization {q : QueueS} {h : Heap} {L : List Nat}
    (buf : Option (Nat → Char)) (bufsize : Nat) (hw : WfRep q h L) (hf : freshOk h) :
    queue_remove_head none buf bufsize h = (false, none, h, buf, none) ∧
    ((queue_remove_head (some q) buf bufsize h).1 = false ↔ q.size = 0) ∧
    (q.size = 0 → queue_remove_head (some q) buf bufsize h = (false, some q, h, buf, none)) ∧
    (q.size ≠ 0 → ∃ a M nd q2, L = a :: M ∧ h.nodes a = some nd ∧
      (queue_remove_head (some q) buf bufsize h).1 = true ∧
      (queue_remove_head (some q) buf bufsize h).2.1 = some q2 ∧
      q2.head = nd.next ∧ q2.size = q.size - 1 ∧
      ((queue_remove_head (some q) buf bufsize h).2.2.1).nodes a = none) := by
  cases L with
  | nil =>
    have hqs : q.size = 0 := hw.len.symm
    have hred := remove_head_fail_empty hqs buf bufsize h
    refine ⟨rfl, ?_, fun _ => hred, fun hne => absurd hqs hne⟩
    rw [hred]
    simp [hqs]
  | cons a M =>
    obtain ⟨q2, h2, sv, hred, hvc, hw2, hf2, hvp, hsz, hdet, hnode⟩ :=
      remove_head_ok buf bufsize hw hf
    have hszq : q.size = M.length + 1 := by
      have := hw.len
      simp only [List.length_cons] at this
      omega
    refine ⟨rfl, ?_, fun h0 => absurd h0 (by omega), fun _ => ?_⟩
    · rw [hred]
      simp
      omega
    · obtain ⟨nd, hnd, hq2head⟩ := hnode
      exact ⟨a, M, nd, q2, rfl, hnd, by rw [hred], by rw [hred], hq2head, hsz,
        by rw [hred]; exact hdet⟩

theorem c3_witness :
    queue_remove_head none none 0 emptyHeap = (false, none, emptyHeap, none, none) ∧
    ((queue_remove_head (some ⟨none, none, 0⟩) none 0 emptyHeap).1 = false ↔
      (⟨none, none, 0⟩ : QueueS).size = 0) := by
  have happ := c3_remove_head_failure_characterization none 0 wf_empty fresh_empty
  exact ⟨happ.1, happ.2.1⟩

/-- C4: every operation — create, insert at either end (under any
allocation outcome), remove from the head, reverse — maps a well-formed
state to a well-formed state, and in particular afterwards the count is
zero iff the head is absent iff the tail is absent, and the forward and
backward chains are mutual inverses on the queue's nodes. -/
theorem c4_every_operation_preserves_invariants (st : Option QueueS × Heap) (op : QOp)
    (hst : WFState st) : WFState (applyOp st op) ∧ structOK (applyOp st op) := by
  have hpres : WFState (applyOp st op) := by
    cases op with
    | create ok =>
      cases ok with
      | true =>
        refine ⟨hst.1, fun q hqe => ?_⟩
        injection hqe with hq'
        exact ⟨[], hq' ▸ wf_empty_any st.2⟩
      | false =>
        exact ⟨hst.1, fun q hqe => by simp [applyOp, queue_new] at hqe⟩
    | insH s okN okS => exact WFState_insert_head s okN okS hst
    | insT s okN okS => exact WFState_insert_tail s okN okS hst
    | remH bufsize => exact WFState_remove_head bufsize hst
    | rev => exact WFState_reverse hst
  refine ⟨hpres, fun q hqe => ?_⟩
  obtain ⟨L, hw⟩ := hpres.2 q hqe
  exact hw.structProps

theorem c4_witness :
    WFState (applyOp (some ⟨none, none, 0⟩, emptyHeap) QOp.rev) ∧
    structOK (applyOp (some ⟨none, none, 0⟩, emptyHeap) QOp.rev) :=
  c4_every_operation_preserves_invariants (some ⟨none, none, 0⟩, emptyHeap) QOp.rev
    ⟨fresh_empty, fun q hqe => by
      injection hqe with hq'
      exact ⟨[], hq' ▸ wf_empty⟩⟩

/-- C5: on a fresh empty queue, after tail-inserting `a`, `b`, `c` (all
allocations succeeding), three successive head removals hand back exactly
`a`, then `b`, then `c` — the payloads a sufficiently large buffer would
receive untruncated. -/
theorem c5_fifo_order (a b c : List Char) :
    runRemovals (insertAllTail (some ⟨none, none, 0⟩, emptyHeap) [a, b, c]) 3 = [a, b, c] := by
  obtain ⟨q2, h2, L2, heq, hw2, hf2, hvals⟩ := insertAllTail_spec [a, b, c] wf_empty fresh_empty
  have hvals2 : vals h2 L2 = [a, b, c] := by simpa [vals] using hvals
  rw [heq]
  have hlen : L2.length = 3 := by
    have := congrArg List.length hvals2
    simpa [vals] using this
  rw [show (3 : Nat) = L2.length from hlen.symm]
  exact (runRemovals_spec L2 hw2 hf2).trans hvals2

/-- C6: inserting `s` at the head of any well-formed queue and immediately
removing the head with a buffer of capacity at least `len s + 1` (a valid
`size_t`) succeeds, hands back exactly `s`, and the buffer holds all of
`s` followed by a NUL terminator — no truncation. -/
theorem c6_insert_remove_round_trip {q : QueueS} {h : Heap} {L : List Nat} (s : List Char)
    (b : Nat → Char) (bufsize : Nat) (hw : WfRep q h L) (hf : freshOk h)
    (hcap : s.length + 1 ≤ bufsize) (hmod : bufsize < SIZE_T_MOD) :
    ∃ q1 h1 q2 h2,
      queue_insert_head (some q) s true true h = (true, some q1, h1) ∧
      queue_remove_head (some q1) (some b) bufsize h1 =
        (true, some q2, h2, some (bufWrite b s bufsize), some s) ∧
      (∀ i, i < s.length → bufWrite b s bufsize i = s.getD i NUL) ∧
      bufWrite b s bufsize s.length = NUL := by
  obtain ⟨q1, h1, heq1, hw1, hf1, hvals1, _, _, _⟩ := insert_head_ok s hw hf
  obtain ⟨q2, h2, sv, hred, hvcons, _, _, _, _, _, _⟩ := remove_head_ok (some b) bufsize hw1 hf1
  have hsv : sv = s := by
    rw [hvals1] at hvcons
    injection hvcons with hh _
    exact hh.symm
  subst hsv
  have hb1 : 1 ≤ bufsize := by omega
  have hmin : min sv.length (bufsize - 1) = sv.length := Nat.min_eq_left (by omega)
  refine ⟨q1, h1, q2, h2, heq1, by rw [hred]; rfl, ?_, ?_⟩
  · intro i hi
    exact bufWrite_copy hb1 hmod (by rw [hmin]; exact hi)
  · have := @bufWrite_term b sv bufsize hb1 hmod
    rwa [hmin] at this

theorem c6_witness :
    ∃ q1 h1 q2 h2,
      queue_insert_head (some ⟨none, none, 0⟩) ['a'] true true emptyHeap =
        (true, some q1, h1) ∧
      queue_remove_head (some q1) (some witBuf) 2 h1 =
        (true, some q2, h2, some (bufWrite witBuf ['a'] 2), some ['a']) ∧
      (∀ i, i < (['a'] : List Char).length →
        bufWrite witBuf ['a'] 2 i = (['a'] : List Char).getD i NUL) ∧
      bufWrite witBuf ['a'] 2 (['a'] : List Char).length = NUL :=
  c6_insert_remove_round_trip ['a'] witBuf 2 wf_empty fresh_empty (by decide)
    (by rw [SIZE_T_MOD_eq]; omega)

/-- C7: building a queue by tail-inserting `x1, ..., xn` on a fresh empty
queue, then reversing it, makes successive head removals hand back
`xn, ..., x1`. -/
theorem c7_reverse_correct (xs : List (List Char)) :
    runRemovals
      (queue_reverse (insertAllTail (some ⟨none, none, 0⟩, emptyHeap) xs).1
        (insertAllTail (some ⟨none, none, 0⟩, emptyHeap) xs).2)
      xs.length = xs.reverse := by
  obtain ⟨q2, h2, L2, heq, hw2, hf2, hvals⟩ := insertAllTail_spec xs wf_empty fresh_empty
  have hvals2 : vals h2 L2 = xs := by simpa [vals] using hvals
  rw [heq]
  show runRemovals (queue_reverse (some q2) h2) xs.length = xs.reverse
  obtain ⟨q3, h3, heq3, hw3, hvals3, _, hstrs3, hna3, hval3⟩ := reverse_ok hw2
  rw [heq3]
  have hf3 : freshOk h3 := freshOk_of_frames hf2 hval3 hstrs3 hna3
  have hlen : L2.length = xs.length := by
    have := congrArg List.length hvals2
    simpa [vals] using this
  have hlenrev : xs.length = L2.reverse.length := by simp [hlen]
  rw [hlenrev, runRemovals_spec L2.reverse hw3 hf3, hvals3, hvals2]

/-- C8: reversing a well-formed queue twice restores both the original
address chain and the original head-to-tail sequence of stored values. -/
theorem c8_double_reverse_restores_order {q : QueueS} {h : Heap} {L : List Nat}
    (hw : WfRep q h L) :
    ∃ q1 h1 q2 h2, queue_reverse (some q) h = (some q1, h1) ∧
      queue_reverse (some q1) h1 = (some q2, h2) ∧
      WfRep q2 h2 L ∧ vals h2 L = vals h L ∧ q2.size = q.size := by
  obtain ⟨q1, h1, he1, hw1, hv1, hs1, _, _, _⟩ := reverse_ok hw
  obtain ⟨q2, h2, he2, hw2, hv2, hs2, _, _, _⟩ := reverse_ok hw1
  rw [List.reverse_reverse] at hw2 hv2
  refine ⟨q1, h1, q2, h2, he1, he2, hw2, ?_, by rw [hs2, hs1]⟩
  rw [hv2, hv1, List.reverse_reverse]

theorem c8_witness :
    ∃ q1 h1 q2 h2, queue_reverse (some ⟨none, none, 0⟩) emptyHeap = (some q1, h1) ∧
      queue_reverse (some q1) h1 = (some q2, h2) ∧
      WfRep q2 h2 [] ∧ vals h2 [] = vals emptyHeap [] ∧
      q2.size = (⟨none, none, 0⟩ : QueueS).size :=
  c8_double_reverse_restores_order wf_empty

/-- C9: along every trace of insert-head / insert-tail / remove-head
operations started on a freshly created queue, `queue_size` returns
exactly the number of successful inserts minus the number of successful
removals (and the latter never exceeds the former). -/
theorem c9_size_counts_successes (h0 : Heap) (ops : List TOp) :
    queue_size (runT (some ⟨none, none, 0⟩, h0) ops).1.1 =
      (runT (some ⟨none, none, 0⟩, h0) ops).2.1 -
        (runT (some ⟨none, none, 0⟩, h0) ops).2.2 ∧
    (runT (some ⟨none, none, 0⟩, h0) ops).2.2 ≤ (runT (some ⟨none, none, 0⟩, h0) ops).2.1 := by
  obtain ⟨q2, hq2, hinv⟩ := runT_size ops ⟨none, none, 0⟩ h0
  have hinv2 : q2.size + (runT (some ⟨none, none, 0⟩, h0) ops).2.2 =
      0 + (runT (some ⟨none, none, 0⟩, h0) ops).2.1 := hinv
  rw [hq2]
  constructor
  · show q2.size = _ - _
    omega
  · omega

/-- C10: `queue_reverse` only rewires links and exchanges the head/tail
fields: it leaves every string cell, every node's occupancy and value
pointer, the allocator counter, and the element count untouched — nothing
is allocated or released. -/
theorem c10_reverse_frame (qo : Option QueueS) (h : Heap) :
    (∀ x, ((queue_reverse qo h).2).strs x = h.strs x) ∧
    (∀ x, ((queue_reverse qo h).2.nodes x).map ListEle.value =
      (h.nodes x).map ListEle.value) ∧
    (∀ x, ((queue_reverse qo h).2.nodes x).isSome = (h.nodes x).isSome) ∧
    (queue_reverse qo h).2.nextA = h.nextA ∧
    Option.map QueueS.size (queue_reverse qo h).1 = Option.map QueueS.size qo ∧
    ((queue_reverse qo h).1).isSome = qo.isSome := by
  cases qo with
  | none => exact ⟨fun x => rfl, fun x => rfl, fun x => rfl, rfl, rfl, rfl⟩
  | some q =>
    obtain ⟨qh, qt, qs⟩ := q
    cases qh with
    | none => exact ⟨fun x => rfl, fun x => rfl, fun x => rfl, rfl, rfl, rfl⟩
    | some hd =>
      cases hnd : h.nodes hd with
      | none =>
        have hred : queue_reverse (some ⟨some hd, qt, qs⟩) h = (some ⟨some hd, qt, qs⟩, h) := by
          simp only [queue_reverse, hnd]
        rw [hred]
        exact ⟨fun x => rfl, fun x => rfl, fun x => rfl, rfl, rfl, rfl⟩
      | some nd =>
        by_cases hnx : nd.next = none
        · have hred : queue_reverse (some ⟨some hd, qt, qs⟩) h =
              (some ⟨some hd, qt, qs⟩, h) := by
            simp only [queue_reverse, hnd]
            rw [if_pos hnx]
          rw [hred]
          exact ⟨fun x => rfl, fun x => rfl, fun x => rfl, rfl, rfl, rfl⟩
        · have hred : queue_reverse (some ⟨some hd, qt, qs⟩) h =
              (some ⟨qt, some hd, qs⟩, reverseLoop h (some hd) qs) := by
            simp only [queue_reverse, hnd]
            rw [if_neg hnx]
          rw [hred]
          obtain ⟨f1, f2, f3⟩ := reverseLoop_frame qs (some hd) h
          exact ⟨fun x => by rw [f1], f3, fun x => isSome_of_map_value (f3 x), f2, rfl, rfl⟩

end QueueLab
